import Mathlib

/-!
Verification development for the self-tuning multi-cache subsystem
(embedding cache engines, AET/MRC profiler and tuning strategy).

The definitions below are shallow embeddings of the C++ sources:
  tensorflow/core/framework/embedding/cache.h
  tensorflow/core/framework/embedding/cache_profiler.h
  tensorflow/core/framework/embedding/cache_tuning_strategy.h
  tensorflow/core/framework/embedding/cache_manager.cc

Machine integers are modelled by Nat / Int; where wraparound of size_t
arithmetic matters (LFUCache's `max_freq - 1`) it is made explicit with
`% 2^64`.  Doubles are modelled by exact rationals.  Mutex acquisition is
dropped: the embedding gives the single-threaded semantics of each
operation.  Keys (template parameter K, instantiated at int64 in the
repository) are modelled by Int.
-/

namespace DeepRecCache

/-! ### LRUCache (cache.h, lines 140-401)

State: the doubly linked list `head -> ... -> tail` is modelled as the
list of keys in MRU-to-LRU order (`order`); the map `mp` is determined by
it (its domain is exactly the members of `order`).  `prefetch` models
`prefetch_id_table` as an association list key -> ref_count (the
`PrefetchNode` ref counts are int64, hence `Int`).  STRICT_LRU is 0 in
the source, so the pending-eviction list does not exist. -/

structure LRUState where
  order : List Int
  numHit : Nat
  numMiss : Nat
  prefetch : List (Int × Int)
deriving Repr, DecidableEq, Inhabited

/-- `LRUCache::LRUCache`: empty list, zeroed counters, empty prefetch table. -/
def lruInit : LRUState := ⟨[], 0, 0, []⟩

/-- One iteration of the loop body of `LRUCache::update` (lines 265-289):
hit moves the node to the front and bumps `num_hit`; miss inserts a new
node at the front and bumps `num_miss`. -/
def lruUpdateOne (s : LRUState) (id : Int) : LRUState :=
  if id ∈ s.order then
    { s with order := id :: s.order.erase id, numHit := s.numHit + 1 }
  else
    { s with order := id :: s.order, numMiss := s.numMiss + 1 }

/-- `LRUCache::update(batch_ids, batch_size, use_locking)`: the batch is
processed in order.  (Locking and the periodic statistics log line are
dropped.) -/
def lruUpdate (s : LRUState) (batch : List Int) : LRUState :=
  batch.foldl lruUpdateOne s

/-- `LRUCache::size` (STRICT_LRU disabled): `mp.size()`. -/
def lruSize (s : LRUState) : Nat := s.order.length

/-- `LRUCache::get_evic_ids` (lines 180-218): walk from `tail->pre`
backwards, collecting and removing up to `k` keys; returns the evicted
keys in LRU-first order together with the new state. -/
def lruGetEvicIds (s : LRUState) (k : Nat) : List Int × LRUState :=
  (s.order.reverse.take k,
   { s with order := (s.order.reverse.drop k).reverse })

/-- `LRUCache::get_cached_ids` (lines 220-229): snapshot up to `k` keys in
MRU-to-LRU order. -/
def lruGetCachedIds (s : LRUState) (k : Nat) : List Int :=
  s.order.take k

/-- Lookup in the prefetch table (`prefetch_id_table.find`). -/
def pfLookup (tbl : List (Int × Int)) (id : Int) : Option Int :=
  (tbl.find? (fun p => p.1 == id)).map (fun p => p.2)

/-- Replace the ref count stored for `id` (in-place `Ref`/`UnRef`). -/
def pfSet (tbl : List (Int × Int)) (id : Int) (n : Int) : List (Int × Int) :=
  tbl.map (fun p => if p.1 == id then (p.1, n) else p)

/-- `prefetch_id_table.erase(id)`. -/
def pfErase (tbl : List (Int × Int)) (id : Int) : List (Int × Int) :=
  tbl.filter (fun p => ¬ (p.1 == id))

/-- One iteration of the loop body of `LRUCache::add_to_prefetch_list`
(lines 304-323): a key already in the prefetch table gets `Ref()`ed;
otherwise it is removed from the hot set (if present) and inserted into
the prefetch table with ref count 1. -/
def lruPrefetchOne (s : LRUState) (id : Int) : LRUState :=
  match pfLookup s.prefetch id with
  | none =>
      let s1 := if id ∈ s.order then { s with order := s.order.erase id } else s
      { s1 with prefetch := (id, 1) :: s1.prefetch }
  | some n => { s with prefetch := pfSet s.prefetch id (n + 1) }

/-- `LRUCache::add_to_prefetch_list(batch_ids, batch_size)`. -/
def lruAddToPrefetchList (s : LRUState) (batch : List Int) : LRUState :=
  batch.foldl lruPrefetchOne s

/-- The collection loop of `LRUCache::add_to_cache` (lines 329-342):
each key must be present in the prefetch table at the moment it is
processed, otherwise `LOG(FATAL)` aborts (modelled by `none`).  `UnRef`
decrements the ref count; at zero the entry is erased and the key is
collected into `ids_to_cache`. -/
def addToCacheLoop : List (Int × Int) → List Int →
    Option (List (Int × Int) × List Int)
  | tbl, [] => some (tbl, [])
  | tbl, id :: rest =>
    match pfLookup tbl id with
    | none => none
    | some n =>
      if n - 1 = 0 then
        match addToCacheLoop (pfErase tbl id) rest with
        | none => none
        | some (tbl1, ids) => some (tbl1, id :: ids)
      else
        addToCacheLoop (pfSet tbl id (n - 1)) rest

/-- `LRUCache::add_to_cache(batch_ids, batch_size)` (lines 325-344): run
the collection loop, then `update(ids_to_cache, nums_to_cache, false)`. -/
def lruAddToCache (s : LRUState) (batch : List Int) : Option LRUState :=
  match addToCacheLoop s.prefetch batch with
  | none => none
  | some (tbl1, ids) => some (lruUpdate { s with prefetch := tbl1 } ids)

/-- Modelled from the spec (claim C8's wording): every key of the batch is
present in the prefetch table "at the moment it is processed", i.e.
taking into account removals caused by earlier keys of the same batch. -/
def allPrefetchedAtTheirTurn : List (Int × Int) → List Int → Bool
  | _, [] => true
  | tbl, id :: rest =>
    match pfLookup tbl id with
    | none => false
    | some n =>
      if n - 1 = 0 then allPrefetchedAtTheirTurn (pfErase tbl id) rest
      else allPrefetchedAtTheirTurn (pfSet tbl id (n - 1)) rest

/-! #### Basic lemmas about `lruUpdate` -/

theorem lruUpdateOne_not_mem (s : LRUState) (id : Int) (h : id ∉ s.order) :
    lruUpdateOne s id =
      { s with order := id :: s.order, numMiss := s.numMiss + 1 } := by
  simp [lruUpdateOne, h]

theorem lruUpdateOne_order_not_mem (s : LRUState) (id : Int)
    (h : id ∉ s.order) : (lruUpdateOne s id).order = id :: s.order := by
  simp [lruUpdateOne, h]

/-- Inserting a batch of fresh distinct keys prepends them in reverse. -/
theorem lruUpdate_order_fresh (batch : List Int) :
    ∀ s : LRUState, batch.Nodup → (∀ b ∈ batch, b ∉ s.order) →
      (lruUpdate s batch).order = batch.reverse ++ s.order := by
  induction batch with
  | nil => intro s _ _; simp [lruUpdate]
  | cons a rest ih =>
      intro s hnd hfresh
      have ha : a ∉ s.order := hfresh a (List.mem_cons_self a rest)
      have hstep : (lruUpdateOne s a).order = a :: s.order :=
        lruUpdateOne_order_not_mem s a ha
      have hrest : ∀ b ∈ rest, b ∉ (lruUpdateOne s a).order := by
        intro b hb
        rw [hstep]
        intro hmem
        rcases List.mem_cons.mp hmem with hba | hbs
        · exact (List.nodup_cons.mp hnd).1 (hba ▸ hb)
        · exact hfresh b (List.mem_cons_of_mem a hb) hbs
      have := ih (lruUpdateOne s a) (List.nodup_cons.mp hnd).2 hrest
      simp only [lruUpdate, List.foldl_cons] at *
      rw [this, hstep]
      simp

theorem addToCacheLoop_none_iff (batch : List Int) :
    ∀ tbl, addToCacheLoop tbl batch = none ↔
      allPrefetchedAtTheirTurn tbl batch = false := by
  induction batch with
  | nil => intro tbl; simp [addToCacheLoop, allPrefetchedAtTheirTurn]
  | cons id rest ih =>
      intro tbl
      cases hl : pfLookup tbl id with
      | none => simp [addToCacheLoop, allPrefetchedAtTheirTurn, hl]
      | some n =>
          by_cases hz : n - 1 = 0
          · cases hr : addToCacheLoop (pfErase tbl id) rest with
            | none =>
                simp only [addToCacheLoop, allPrefetchedAtTheirTurn, hl, hz,
                  if_true, hr]
                simpa [hr] using (ih (pfErase tbl id)).mp hr
            | some p =>
                have : allPrefetchedAtTheirTurn (pfErase tbl id) rest = true := by
                  rcases Bool.eq_false_or_eq_true
                    (allPrefetchedAtTheirTurn (pfErase tbl id) rest) with h | h
                  · exact h
                  · exact absurd ((ih (pfErase tbl id)).mpr h) (by simp [hr])
                simp [addToCacheLoop, allPrefetchedAtTheirTurn, hl, hz, hr, this]
          · simp only [addToCacheLoop, allPrefetchedAtTheirTurn, hl, hz, if_false]
            exact ih (pfSet tbl id (n - 1))

/-- **C8.** `add_to_cache(batch)` reaches the `LOG(FATAL)` branch iff some
key of the batch is absent from the prefetch table at the moment it is
processed; when every key is present at its turn, no abort happens. -/
theorem lru_add_to_cache_fatal_iff (s : LRUState) (batch : List Int) :
    lruAddToCache s batch = none ↔
      allPrefetchedAtTheirTurn s.prefetch batch = false := by
  cases hr : addToCacheLoop s.prefetch batch with
  | none =>
      simp only [lruAddToCache, hr]
      simpa using (addToCacheLoop_none_iff batch s.prefetch).mp hr
  | some p =>
      have : allPrefetchedAtTheirTurn s.prefetch batch = true := by
        rcases Bool.eq_false_or_eq_true
          (allPrefetchedAtTheirTurn s.prefetch batch) with h | h
        · exact h
        · exact absurd ((addToCacheLoop_none_iff batch s.prefetch).mpr h)
            (by simp [hr])
      simp [lruAddToCache, hr, this]

/-- **C1.** From an empty LRU cache, after `update([k1,...,kn])` with all
keys distinct, `get_evic_ids(out, n)` returns count `n`, fills the output
with `[k1,...,kn]` (LRU-first), and leaves the cache empty. -/
theorem lru_update_then_evict_all (batch : List Int) (hnd : batch.Nodup) :
    (lruGetEvicIds (lruUpdate lruInit batch) batch.length).1 = batch ∧
    (lruGetEvicIds (lruUpdate lruInit batch) batch.length).1.length
      = batch.length ∧
    lruSize (lruGetEvicIds (lruUpdate lruInit batch) batch.length).2 = 0 := by
  have horder : (lruUpdate lruInit batch).order = batch.reverse := by
    have := lruUpdate_order_fresh batch lruInit hnd (by intro b _; simp [lruInit])
    simpa [lruInit] using this
  refine ⟨?_, ?_, ?_⟩
  · simp [lruGetEvicIds, horder]
  · simp [lruGetEvicIds, horder]
  · simp [lruGetEvicIds, lruSize, horder]

/-- Witness for C1 at the concrete batch `[1, 2, 3]`. -/
theorem lru_update_then_evict_all_witness :
    (lruGetEvicIds (lruUpdate lruInit [1, 2, 3]) 3).1 = [1, 2, 3] ∧
    (lruGetEvicIds (lruUpdate lruInit [1, 2, 3]) 3).1.length = 3 ∧
    lruSize (lruGetEvicIds (lruUpdate lruInit [1, 2, 3]) 3).2 = 0 :=
  lru_update_then_evict_all [1, 2, 3] (by decide)

/-- **C4.** `add_to_prefetch_list([k]); add_to_cache([k])` on an empty LRU
cache admits `k` into the hot set and empties the prefetch table; double
prefetch followed by a single admit leaves `k` in the prefetch table with
one outstanding reference and does not admit `k` into the hot set. -/
theorem lru_prefetch_admit_pairing (k : Int) :
    (∃ s2, lruAddToCache (lruAddToPrefetchList lruInit [k]) [k] = some s2 ∧
      k ∈ s2.order ∧ s2.prefetch = []) ∧
    (∃ s3, lruAddToCache
        (lruAddToPrefetchList (lruAddToPrefetchList lruInit [k]) [k]) [k]
        = some s3 ∧
      pfLookup s3.prefetch k = some 1 ∧ k ∉ s3.order) := by
  have h1 : lruAddToPrefetchList lruInit [k]
      = ⟨[], 0, 0, [(k, 1)]⟩ := by
    simp [lruAddToPrefetchList, lruPrefetchOne, lruInit, pfLookup]
  have h2 : lruAddToPrefetchList (lruAddToPrefetchList lruInit [k]) [k]
      = ⟨[], 0, 0, [(k, 2)]⟩ := by
    rw [h1]
    simp [lruAddToPrefetchList, lruPrefetchOne, pfLookup, pfSet]
  constructor
  · refine ⟨⟨[k], 0, 1, []⟩, ?_, by simp, rfl⟩
    rw [h1]
    simp [lruAddToCache, addToCacheLoop, pfLookup, pfErase, lruUpdate,
      lruUpdateOne]
  · refine ⟨⟨[], 0, 0, [(k, 1)]⟩, ?_, by simp [pfLookup], by simp⟩
    rw [h2]
    norm_num [lruAddToCache, addToCacheLoop, pfLookup, pfSet, lruUpdate]

/-! ### ShardedLRUCache (cache.h, lines 403-641)

Each `LRUShard` carries its own list, its `size` counter (a separate
field in the source, incremented on miss and decremented by
`get_evic_ids` — note that `add_to_prefetch_list` does **not** decrement
it), hit/miss counters and prefetch table.  Shard routing is
`id & shard_mask_`, i.e. `Int.land` on the int64 key (two's complement,
which `Int.land` implements). -/

structure LRUShard where
  order : List Int
  size : Nat
  numHit : Nat
  numMiss : Nat
  prefetch : List (Int × Int)
deriving Repr, DecidableEq, Inhabited

structure ShardedState where
  shards : List LRUShard
deriving Repr, DecidableEq, Inhabited

def emptyShard : LRUShard := ⟨[], 0, 0, 0, []⟩

/-- `ShardedLRUCache::ShardedLRUCache(name, shard_shift)`:
`1 << shard_shift` empty shards. -/
def shardedInit (shard_shift : Nat) : ShardedState :=
  ⟨List.replicate (2 ^ shard_shift) emptyShard⟩

/-- Shard index of a key: `id & shard_mask_` with
`shard_mask_ = shard_num - 1`. -/
def shardIdx (numShards : Nat) (id : Int) : Nat :=
  (Int.land id ((numShards - 1 : Nat) : Int)).toNat

/-- Per-shard body of `ShardedLRUCache::update` (lines 509-528). -/
def shardUpdateOne (sh : LRUShard) (id : Int) : LRUShard :=
  if id ∈ sh.order then
    { sh with order := id :: sh.order.erase id, numHit := sh.numHit + 1 }
  else
    { sh with
      order := (id :: sh.order)
      size := sh.size + 1
      numMiss := sh.numMiss + 1 }

/-- One iteration of `ShardedLRUCache::update`'s loop: route by
`id & shard_mask_`, then update that shard. -/
def shardedUpdateOne (st : ShardedState) (id : Int) : ShardedState :=
  let idx := shardIdx st.shards.length id
  ⟨st.shards.set idx (shardUpdateOne (st.shards.getD idx default) id)⟩

/-- `ShardedLRUCache::update(batch_ids, batch_size, use_locking)`. -/
def shardedUpdate (st : ShardedState) (batch : List Int) : ShardedState :=
  batch.foldl shardedUpdateOne st

/-- `ShardedLRUCache::size`: sum of the per-shard `size` counters. -/
def shardedSize (st : ShardedState) : Nat :=
  (st.shards.map (fun sh => sh.size)).sum

def shardedHits (st : ShardedState) : Nat :=
  (st.shards.map (fun sh => sh.numHit)).sum

def shardedMisses (st : ShardedState) : Nat :=
  (st.shards.map (fun sh => sh.numMiss)).sum

/-- Per-shard part of `ShardedLRUCache::get_evic_ids` (lines 466-480):
evict up to the shard quota from the tail, decrementing the size
counter by the number actually evicted. -/
def shardEvic (sh : LRUShard) (quota : Nat) : List Int × LRUShard :=
  let ev := sh.order.reverse.take quota
  (ev, { sh with
         order := (sh.order.reverse.drop quota).reverse
         size := sh.size - ev.length })

/-- The per-shard quota of `ShardedLRUCache::get_evic_ids`:
`k/N + (i < k%N ? 1 : 0)`. -/
def shardQuota (numShards k i : Nat) : Nat :=
  k / numShards + if i < k % numShards then 1 else 0

/-- `ShardedLRUCache::get_evic_ids(evic_ids, k_size)` (lines 457-483):
each shard is drained by its quota; unmet quotas are not redistributed. -/
def shardedGetEvicIds (st : ShardedState) (k : Nat) :
    List Int × ShardedState :=
  let n := st.shards.length
  let pairs := List.zipWith
    (fun i sh => shardEvic sh (shardQuota n k i)) (List.range n) st.shards
  ((pairs.map Prod.fst).flatten, ⟨pairs.map Prod.snd⟩)

/-- `ShardedLRUCache::get_cached_ids` (lines 485-500): partitioned
snapshot with the same quota split. -/
def shardedGetCachedIds (st : ShardedState) (k : Nat) : List Int :=
  let n := st.shards.length
  (List.zipWith (fun i sh => sh.order.take (shardQuota n k i))
    (List.range n) st.shards).flatten

/-! ### Operation traces for the sharded-equivalence claim -/

/-- Observable operations common to `LRUCache` and `ShardedLRUCache`. -/
inductive CacheOp where
  | upd (batch : List Int)
  | size
  | evic (k : Nat)
  | cached (k : Nat)
  | stats
deriving Repr, DecidableEq

/-- Observable outputs of a cache operation: counts, key arrays,
the hit/miss counter pair. -/
inductive CacheOut where
  | unit
  | num (n : Nat)
  | ids (l : List Int)
  | stat (h m : Nat)
deriving Repr, DecidableEq

def lruStep (s : LRUState) : CacheOp → CacheOut × LRUState
  | .upd b => (.unit, lruUpdate s b)
  | .size => (.num (lruSize s), s)
  | .evic k => ((.ids (lruGetEvicIds s k).1), (lruGetEvicIds s k).2)
  | .cached k => (.ids (lruGetCachedIds s k), s)
  | .stats => (.stat s.numHit s.numMiss, s)

def shardedStep (st : ShardedState) : CacheOp → CacheOut × ShardedState
  | .upd b => (.unit, shardedUpdate st b)
  | .size => (.num (shardedSize st), st)
  | .evic k => ((.ids (shardedGetEvicIds st k).1), (shardedGetEvicIds st k).2)
  | .cached k => (.ids (shardedGetCachedIds st k), st)
  | .stats => (.stat (shardedHits st) (shardedMisses st), st)

def lruRun : LRUState → List CacheOp → List CacheOut
  | _, [] => []
  | s, op :: rest => (lruStep s op).1 :: lruRun (lruStep s op).2 rest

def shardedRun : ShardedState → List CacheOp → List CacheOut
  | _, [] => []
  | st, op :: rest => (shardedStep st op).1 :: shardedRun (shardedStep st op).2 rest

/-! #### C9: eviction quota accounting -/

theorem flatten_map_fst_length (pairs : List (List Int × LRUShard)) :
    (pairs.map Prod.fst).flatten.length
      = (pairs.map (fun p => p.1.length)).sum := by
  induction pairs with
  | nil => rfl
  | cons p rest ih => simp [ih]

/-- **C9.** `ShardedLRUCache::get_evic_ids(out, k)` evicts from shard `i`
exactly `min(qᵢ, |shard i|)` keys, `qᵢ = k/N + (i < k%N ? 1 : 0)`, and
returns the sum of those counts; unmet quotas are not redistributed, so
a state can have `size() ≥ k` yet return strictly fewer than `k` keys
(witnessed by two shards holding 2 and 0 keys and `k = 2`). -/
theorem sharded_evic_quota_counts :
    (∀ (st : ShardedState) (k : Nat),
      (shardedGetEvicIds st k).1.length
        = (List.zipWith
            (fun i sh => min (shardQuota st.shards.length k i) sh.order.length)
            (List.range st.shards.length) st.shards).sum) ∧
    (let st2 : ShardedState := ⟨[⟨[2, 0], 2, 0, 2, []⟩, emptyShard]⟩
     shardedSize st2 = 2 ∧ (shardedGetEvicIds st2 2).1.length = 1) := by
  constructor
  · intro st k
    rw [shardedGetEvicIds, flatten_map_fst_length, List.map_zipWith]
    simp [shardEvic]
  · constructor
    · decide
    · decide

/-! #### C6: sharded vs single-shard equivalence -/

/-- The trace `update([0,2]); get_evic_ids(2)` with both keys in shard 0
of a 2-shard cache: the sharded cache returns one key, the single cache
two. -/
theorem sharded_equivalence_counterexample :
    (Int.land 0 1 = 0 ∧ Int.land 2 1 = 0) ∧
    shardedRun (shardedInit 1) [.upd [0, 2], .evic 2]
      ≠ lruRun lruInit [.upd [0, 2], .evic 2] := by
  constructor
  · constructor <;> decide
  · decide

/-- Routing with a single shard always selects shard 0 (`id & 0 == 0`). -/
theorem shardIdx_one (id : Int) : shardIdx 1 id = 0 := by
  have : Int.land id 0 = 0 := by
    cases id with
    | ofNat n => simp [Int.land]
    | negSucc n => simp [Int.land, Nat.ldiff]
  simp [shardIdx, this]

/-- The shard of a single-shard simulation: `size` mirrors the list
length, prefetch table empty. -/
def mirrorShard (sg : LRUState) : LRUShard :=
  ⟨sg.order, sg.order.length, sg.numHit, sg.numMiss, []⟩

/-- Simulation relation: shard `s` carries exactly the single cache's
state, all other shards are empty. -/
def RelShard (N s : Nat) (sg : LRUState) (st : ShardedState) : Prop :=
  st.shards = (List.replicate N emptyShard).set s (mirrorShard sg)

theorem relShard_length {N s : Nat} {sg : LRUState} {st : ShardedState}
    (h : RelShard N s sg st) : st.shards.length = N := by
  rw [h]; simp

theorem getD_set_self_of_lt (l : List LRUShard) (i : Nat) (x d : LRUShard)
    (h : i < l.length) : (l.set i x).getD i d = x := by
  rw [List.getD_eq_getElem?_getD]
  simp [List.getElem?_set_self, h]

theorem relShard_init (shift s : Nat) :
    RelShard (2 ^ shift) s lruInit (shardedInit shift) := by
  unfold RelShard shardedInit mirrorShard lruInit emptyShard
  simp

theorem relShard_upd_one {N s : Nat} {sg : LRUState} {st : ShardedState}
    (hs : s < N) (hrel : RelShard N s sg st) (id : Int)
    (hroute : shardIdx N id = s) :
    RelShard N s (lruUpdateOne sg id) (shardedUpdateOne st id) := by
  have hlen : st.shards.length = N := relShard_length hrel
  have hidx : shardIdx st.shards.length id = s := by rw [hlen, hroute]
  have hslt : s < st.shards.length := by rw [hlen]; exact hs
  have hget : st.shards.getD s default = mirrorShard sg := by
    rw [hrel]
    exact getD_set_self_of_lt _ s _ default (by simp [hs])
  have hstep : shardedUpdateOne st id =
      ⟨st.shards.set s (shardUpdateOne (mirrorShard sg) id)⟩ := by
    simp only [shardedUpdateOne]
    rw [hidx, hget]
  rw [hstep]
  unfold RelShard at *
  rw [hrel, List.set_set]
  by_cases hmem : id ∈ sg.order
  · have hlen1 : sg.order.length - 1 + 1 = sg.order.length := by
      have : 0 < sg.order.length := List.length_pos.mpr
        (List.ne_nil_of_mem hmem)
      omega
    simp [shardUpdateOne, lruUpdateOne, mirrorShard, hmem,
      List.length_erase_of_mem hmem, hlen1]
  · simp [shardUpdateOne, lruUpdateOne, mirrorShard, hmem]

theorem relShard_upd {N s : Nat} (batch : List Int) :
    ∀ {sg : LRUState} {st : ShardedState}, s < N → RelShard N s sg st →
    (∀ id ∈ batch, shardIdx N id = s) →
    RelShard N s (lruUpdate sg batch) (shardedUpdate st batch) := by
  induction batch with
  | nil => intro sg st _ hrel _; exact hrel
  | cons a rest ih =>
      intro sg st hs hrel hroute
      have h1 := relShard_upd_one hs hrel a (hroute a (by simp))
      have := ih hs h1 (fun id hid => hroute id (List.mem_cons_of_mem a hid))
      simpa [lruUpdate, shardedUpdate] using this

theorem sum_set_replicate_zero :
    ∀ (n t v : Nat), t < n → ((List.replicate n 0).set t v).sum = v := by
  intro n
  induction n with
  | zero => intro t v h; exact absurd h (Nat.not_lt_zero t)
  | succ m ih =>
      intro t v h
      cases t with
      | zero => simp [List.replicate_succ]
      | succ u =>
          have := ih u v (Nat.lt_of_succ_lt_succ h)
          simp [List.replicate_succ, this]

theorem sum_map_set_replicate (f : LRUShard → Nat) (hf : f emptyShard = 0) :
    ∀ (N s : Nat) (x : LRUShard), s < N →
      ((((List.replicate N emptyShard).set s x).map f).sum) = f x := by
  intro N s x h
  rw [List.map_set, List.map_replicate, hf]
  exact sum_set_replicate_zero N s (f x) h

theorem relShard_size {N s : Nat} {sg : LRUState} {st : ShardedState}
    (hs : s < N) (hrel : RelShard N s sg st) :
    shardedSize st = lruSize sg := by
  unfold shardedSize lruSize
  rw [hrel]
  exact sum_map_set_replicate _ rfl N s _ hs

theorem relShard_hits {N s : Nat} {sg : LRUState} {st : ShardedState}
    (hs : s < N) (hrel : RelShard N s sg st) :
    shardedHits st = sg.numHit := by
  unfold shardedHits
  rw [hrel]
  exact sum_map_set_replicate _ rfl N s _ hs

theorem relShard_misses {N s : Nat} {sg : LRUState} {st : ShardedState}
    (hs : s < N) (hrel : RelShard N s sg st) :
    shardedMisses st = sg.numMiss := by
  unfold shardedMisses
  rw [hrel]
  exact sum_map_set_replicate _ rfl N s _ hs

/-- Operations covered by the amended claim for an arbitrary shard
count: `update` batches routed to shard `s`, `size`, and the hit/miss
statistics.  `get_evic_ids` / `get_cached_ids` are excluded (their quota
split is what the counterexample exploits). -/
def opUpdSizeStats (N s : Nat) : CacheOp → Prop
  | .upd b => ∀ id ∈ b, shardIdx N id = s
  | .size => True
  | .stats => True
  | .evic _ => False
  | .cached _ => False

theorem relShard_run {N s : Nat} (trace : List CacheOp) :
    ∀ {sg : LRUState} {st : ShardedState}, s < N → RelShard N s sg st →
    (∀ op ∈ trace, opUpdSizeStats N s op) →
    shardedRun st trace = lruRun sg trace := by
  induction trace with
  | nil => intro sg st _ _ _; rfl
  | cons op rest ih =>
      intro sg st hs hrel hops
      have hop := hops op (by simp)
      cases op with
      | upd b =>
          have hrel1 := relShard_upd b hs hrel hop
          have := ih hs hrel1 (fun o ho => hops o (List.mem_cons_of_mem _ ho))
          simp [shardedRun, lruRun, shardedStep, lruStep, this]
      | size =>
          have := ih hs hrel (fun o ho => hops o (List.mem_cons_of_mem _ ho))
          simp [shardedRun, lruRun, shardedStep, lruStep, this,
            relShard_size hs hrel]
      | stats =>
          have := ih hs hrel (fun o ho => hops o (List.mem_cons_of_mem _ ho))
          simp [shardedRun, lruRun, shardedStep, lruStep, this,
            relShard_hits hs hrel, relShard_misses hs hrel]
      | evic k => exact absurd hop (by simp [opUpdSizeStats])
      | cached k => exact absurd hop (by simp [opUpdSizeStats])

/-! For a single shard (`shard_shift = 0`) every operation agrees. -/

theorem relShard_evic_one {sg : LRUState} {st : ShardedState}
    (hrel : RelShard 1 0 sg st) (k : Nat) :
    (shardedGetEvicIds st k).1 = (lruGetEvicIds sg k).1 ∧
    RelShard 1 0 (lruGetEvicIds sg k).2 (shardedGetEvicIds st k).2 := by
  have hsh : st.shards = [mirrorShard sg] := by
    rw [hrel]; rfl
  have hq : shardQuota 1 k 0 = k := by
    simp [shardQuota, Nat.mod_one]
  constructor
  · simp [shardedGetEvicIds, hsh, shardEvic, lruGetEvicIds, List.range_succ,
      hq, mirrorShard]
  · unfold RelShard at *
    simp only [shardedGetEvicIds, hsh, List.zipWith, List.range_succ]
    simp [shardEvic, lruGetEvicIds, mirrorShard, hq]
    omega

theorem relShard_cached_one {sg : LRUState} {st : ShardedState}
    (hrel : RelShard 1 0 sg st) (k : Nat) :
    shardedGetCachedIds st k = lruGetCachedIds sg k := by
  have hsh : st.shards = [mirrorShard sg] := by
    rw [hrel]; rfl
  have hq : shardQuota 1 k 0 = k := by
    simp [shardQuota, Nat.mod_one]
  simp [shardedGetCachedIds, hsh, lruGetCachedIds, List.range_succ, hq,
    mirrorShard]

theorem relShard_run_one (trace : List CacheOp) :
    ∀ {sg : LRUState} {st : ShardedState}, RelShard 1 0 sg st →
    shardedRun st trace = lruRun sg trace := by
  induction trace with
  | nil => intro sg st _; rfl
  | cons op rest ih =>
      intro sg st hrel
      cases op with
      | upd b =>
          have hrel1 := relShard_upd b (by omega) hrel
            (fun id _ => shardIdx_one id)
          simp [shardedRun, lruRun, shardedStep, lruStep, ih hrel1]
      | size =>
          simp [shardedRun, lruRun, shardedStep, lruStep, ih hrel,
            relShard_size (by omega) hrel]
      | stats =>
          simp [shardedRun, lruRun, shardedStep, lruStep, ih hrel,
            relShard_hits (by omega) hrel, relShard_misses (by omega) hrel]
      | evic k =>
          obtain ⟨hout, hrel1⟩ := relShard_evic_one hrel k
          simp [shardedRun, lruRun, shardedStep, lruStep, hout, ih hrel1]
      | cached k =>
          simp [shardedRun, lruRun, shardedStep, lruStep,
            relShard_cached_one hrel k, ih hrel]

/-- **C6 (amended).** For a workload whose keys all route to one shard,
the sharded LRU agrees with a single LRU of the same capacity on
`update`, `size` and the hit/miss statistics for any shard count; with
`get_evic_ids` / `get_cached_ids` included, the agreement holds when the
shard count is 1 (the per-shard eviction quota breaks it for two or
more shards, see the counterexample). -/
theorem sharded_lru_equivalence_amended :
    (∀ (shift s : Nat) (trace : List CacheOp), s < 2 ^ shift →
      (∀ op ∈ trace, opUpdSizeStats (2 ^ shift) s op) →
      shardedRun (shardedInit shift) trace = lruRun lruInit trace) ∧
    (∀ trace : List CacheOp,
      shardedRun (shardedInit 0) trace = lruRun lruInit trace) := by
  constructor
  · intro shift s trace hs hops
    exact relShard_run trace hs (relShard_init shift s) hops
  · intro trace
    exact relShard_run_one trace (by simpa using relShard_init 0 0)

/-- Witness for the amended C6 at a concrete trace of each kind. -/
theorem sharded_lru_equivalence_amended_witness :
    shardedRun (shardedInit 1) [.upd [0, 2], .size, .stats]
      = lruRun lruInit [.upd [0, 2], .size, .stats] ∧
    shardedRun (shardedInit 0) [.upd [0, 5], .evic 2, .cached 1]
      = lruRun lruInit [.upd [0, 5], .evic 2, .cached 1] :=
  ⟨sharded_lru_equivalence_amended.1 1 0 _ (by decide)
      (by
        intro op hop
        simp only [List.mem_cons, List.not_mem_nil, or_false] at hop
        rcases hop with rfl | rfl | rfl
        · show ∀ id ∈ ([0, 2] : List Int), shardIdx (2 ^ 1) id = 0
          decide
        · trivial
        · trivial),
   sharded_lru_equivalence_amended.2 _⟩

/-! ### SamplingLRUAETProfiler: reuse-time histogram
(cache_profiler.h, constructor lines 62-80 and `IncreaseHistogram`
lines 271-282) -/

/-- `reuse_time_hist_(max_reuse_time / bucket_size + 3, 0)`. -/
def histInit (max_reuse_time bucket_size : Nat) : List Nat :=
  List.replicate (max_reuse_time / bucket_size + 3) 0

/-- The bucket `IncreaseHistogram(time)` increments: the last bucket on
overflow, bucket 0 for `time == 0`, else `(time-1)/bucket_size + 1`. -/
def histBucket (max_reuse_time bucket_size histLen time : Nat) : Nat :=
  if time > max_reuse_time then histLen - 1
  else if time = 0 then 0
  else (time - 1) / bucket_size + 1

/-- `SamplingLRUAETProfiler::IncreaseHistogram`. -/
def increaseHistogram (max_reuse_time bucket_size : Nat) (hist : List Nat)
    (time : Nat) : List Nat :=
  let b := histBucket max_reuse_time bucket_size hist.length time
  hist.set b (hist.getD b 0 + 1)

/-- **C7.** The histogram has exactly `max_reuse_time/bucket_size + 3`
buckets, and a recorded reuse distance `d` is added to bucket
`(d-1)/bucket_size + 1` when `0 < d ≤ max_reuse_time`, to the last
(overflow) bucket when `d > max_reuse_time`, and to bucket 0 when
`d = 0`; for `0 < bucket_size` the incremented bucket is always in
bounds. -/
theorem histogram_bucket_spec (max_reuse_time bucket_size : Nat)
    (hb : 0 < bucket_size) :
    (histInit max_reuse_time bucket_size).length
      = max_reuse_time / bucket_size + 3 ∧
    (∀ (hist : List Nat) (d : Nat),
      hist.length = max_reuse_time / bucket_size + 3 →
      (0 < d ∧ d ≤ max_reuse_time →
        increaseHistogram max_reuse_time bucket_size hist d
          = hist.set ((d - 1) / bucket_size + 1)
              (hist.getD ((d - 1) / bucket_size + 1) 0 + 1)) ∧
      (d > max_reuse_time →
        increaseHistogram max_reuse_time bucket_size hist d
          = hist.set (hist.length - 1)
              (hist.getD (hist.length - 1) 0 + 1)) ∧
      (d = 0 →
        increaseHistogram max_reuse_time bucket_size hist d
          = hist.set 0 (hist.getD 0 0 + 1)) ∧
      histBucket max_reuse_time bucket_size hist.length d
        < hist.length) := by
  refine ⟨by simp [histInit], ?_⟩
  intro hist d hlen
  refine ⟨?_, ?_, ?_, ?_⟩
  · rintro ⟨hd0, hdm⟩
    have hno : ¬ d > max_reuse_time := by omega
    have hnz : ¬ d = 0 := by omega
    simp [increaseHistogram, histBucket, hno, hnz]
  · intro hover
    simp [increaseHistogram, histBucket, hover]
  · rintro rfl
    simp [increaseHistogram, histBucket]
  · have hpos : 0 < max_reuse_time / bucket_size + 3 :=
      Nat.lt_of_lt_of_le (by norm_num) (Nat.le_add_left 3 _)
    rcases Nat.lt_or_ge max_reuse_time d with hover | hle
    · have hred : histBucket max_reuse_time bucket_size hist.length d
          = hist.length - 1 := by
        unfold histBucket
        rw [if_pos hover]
      rw [hred, hlen]
      exact Nat.sub_lt hpos (by norm_num)
    · have hno : ¬ d > max_reuse_time := by omega
      rcases Nat.eq_zero_or_pos d with rfl | hd0
      · have hred : histBucket max_reuse_time bucket_size hist.length 0
            = 0 := by
          unfold histBucket
          rw [if_neg hno, if_pos rfl]
        rw [hred, hlen]
        exact hpos
      · have hnz : ¬ d = 0 := by omega
        have hred : histBucket max_reuse_time bucket_size hist.length d
            = (d - 1) / bucket_size + 1 := by
          unfold histBucket
          rw [if_neg hno, if_neg hnz]
        rw [hred, hlen]
        have hmono : (d - 1) / bucket_size ≤ max_reuse_time / bucket_size :=
          Nat.div_le_div_right (by omega)
        exact Nat.lt_of_le_of_lt (Nat.add_le_add_right hmono 1)
          (Nat.add_lt_add_left (by norm_num) _)

/-- Witness for C7 at `max_reuse_time = 100`, `bucket_size = 10`,
`d = 25` on the initial histogram. -/
theorem histogram_bucket_spec_witness :
    increaseHistogram 100 10 (histInit 100 10) 25
      = (histInit 100 10).set 3 ((histInit 100 10).getD 3 0 + 1) ∧
    histBucket 100 10 (histInit 100 10).length 25
      < (histInit 100 10).length :=
  ⟨by
    have h := (histogram_bucket_spec 100 10 (by decide)).2
      (histInit 100 10) 25 (by decide)
    simpa using h.1 (by decide),
   ((histogram_bucket_spec 100 10 (by decide)).2 (histInit 100 10) 25
      (by decide)).2.2.2⟩

/-! ### LFUCache: `get_cached_ids` bounds (cache.h, lines 646-683,
874-877)

The constructor sets `min_freq = SIZE_MAX`, `max_freq = 0` and a
one-element `freq_table`; `reset_min_and_max_freq` restores these
sentinels.  `get_cached_ids` evaluates
`freq_table[max_freq - 1].first->begin()` (line 666) before its while
loop runs; `max_freq` is a `size_t`, so the subtraction wraps. -/

/-- The fields of `LFUCache` that `get_cached_ids` reads before its
while loop. -/
structure LFUBounds where
  min_freq : Nat
  max_freq : Nat
  freq_table_len : Nat
deriving Repr, DecidableEq

/-- Constructor state (lines 646-654): sentinels
`min_freq = SIZE_MAX = 2^64 - 1`, `max_freq = 0`, `freq_table` holding
one (empty) frequency class. -/
def lfuInit : LFUBounds := ⟨2 ^ 64 - 1, 0, 1⟩

/-- The `freq_table` index of the iterator initializer
`freq_table[max_freq - 1]` at line 666, with `size_t` wraparound. -/
def lfuCachedIdsFirstIndex (st : LFUBounds) : Nat :=
  (st.max_freq + (2 ^ 64 - 1)) % 2 ^ 64

/-- The guard of `get_cached_ids`'s while loop (`curr_freq >= min_freq`
with `curr_freq = max_freq`, `k_size > 0`). -/
def lfuCachedIdsLoopRuns (st : LFUBounds) (k_size : Nat) : Bool :=
  decide (0 < k_size) && decide (st.min_freq ≤ st.max_freq)

/-- **C10 (refuting the claim; the code is at fault).** On a freshly
constructed (empty) `LFUCache`, `get_cached_ids` evaluates
`freq_table[max_freq - 1]` with `max_freq = 0`: the `size_t` index wraps
to `2^64 - 1`, which is out of bounds for the one-element `freq_table`
— although the while loop itself never runs (its guard
`curr_freq >= min_freq` is false, so 0 entries are produced). -/
theorem lfu_get_cached_ids_oob :
    lfuCachedIdsFirstIndex lfuInit = 2 ^ 64 - 1 ∧
    lfuInit.freq_table_len ≤ lfuCachedIdsFirstIndex lfuInit ∧
    (∀ k_size : Nat, lfuCachedIdsLoopRuns lfuInit k_size = false) := by
  refine ⟨by decide, by decide, ?_⟩
  intro k
  simp [lfuCachedIdsLoopRuns, lfuInit]

/-! ### Tuning strategy (cache_tuning_strategy.h) and the manager's
apply step (cache_manager.cc, lines 104-112)

Doubles are modelled by exact rationals; the `double -> uint64_t`
conversions truncate toward zero (`toU64`), and the `uint64_t`
subtractions in the gain/loss computations wrap (`u64sub`), as in the
source.  The random draws of `RandomApportion` (the rounded seed parts
and the sequence of repair picks) are taken as parameters. -/

structure CacheItem where
  bucket_size : Nat
  orig_size : Nat
  new_size : Nat
  entry_size : Nat
  vc : Nat
  mc : Nat
  mr : ℚ
  mrc : List ℚ
deriving Repr, DecidableEq, Inhabited

/-- `uint64_t x = (double)q`: truncation toward zero of a non-negative
value (negative values clamp to 0 in the model; the source never
produces them for in-range MRCs). -/
def toU64 (q : ℚ) : Nat := q.floor.toNat % 2 ^ 64

/-- Wrapping `uint64_t` subtraction `a - b`. -/
def u64sub (a b : Nat) : Nat := (a % 2 ^ 64 + (2 ^ 64 - b % 2 ^ 64)) % 2 ^ 64

/-- Wrapping `uint64_t` accumulation (`sum += x`). -/
def sumU64 (l : List Nat) : Nat := l.foldl (fun a b => (a + b) % 2 ^ 64) 0

/-- `InterpolateMRC(mrc, bucket_size, target)` (lines 37-48): linear
interpolation between adjacent MRC buckets, clamped to the
second-to-last value beyond the observed range.  `bucket_int`, the floor
of `(double)target / bucket_size`, equals Nat division for
`bucket_size > 0`; `mrc.size() - 2` is `size_t` arithmetic on a vector
of at least 2 elements (every `GetMRC` result has length >= 2). -/
def interpolateMRC (mrc : List ℚ) (bucket_size : Nat) (target : Nat) : ℚ :=
  let bucket : ℚ := (target : ℚ) / (bucket_size : ℚ)
  let bucket_int : Nat := target / bucket_size
  if mrc.length - 2 ≤ bucket_int then mrc.getD (mrc.length - 2) 0
  else if mrc.length = 2 then mrc.getD 0 0
  else mrc.getD bucket_int 0 +
    (bucket - (bucket_int : ℚ)) *
      (mrc.getD (bucket_int + 1) 0 - mrc.getD bucket_int 0)

/-- The drift-repair loop of `RandomApportion` (lines 77-85): while
`remaining != 0`, pick a random part (the picks are parameters, reduced
mod the part count as the distribution draws in `[0, num_parts-1]`) and
move one unit onto/off it when that keeps the part positive.  `none`
models a pick sequence too short to finish (the source loops forever
drawing fresh picks; every terminating run is some finite pick list). -/
def fixDrift : List Nat → Int → List Nat → Option (List Nat)
  | parts, remaining, [] => if remaining = 0 then some parts else none
  | parts, remaining, p :: rest =>
    if remaining = 0 then some parts
    else
      if ((parts.getD (p % parts.length) 0 : Int)
            + (if remaining > 0 then 1 else -1)) > 0 then
        fixDrift (parts.set (p % parts.length)
            (((parts.getD (p % parts.length) 0 : Int)
              + (if remaining > 0 then 1 else -1)).toNat))
          (remaining - (if remaining > 0 then 1 else -1)) rest
      else fixDrift parts remaining rest

/-- `RandomApportion(parts, total, min_size)` (lines 50-89): reserve
`min_size` per part, seed with the rounded random apportionment
(`rounded`, a parameter standing for the rounded draws), repair the
rounding drift, then add `min_size` back.  `resv_size >= total` is
`LOG(FATAL)`, modelled by `none`. -/
def randomApportion (rounded : List Nat) (picks : List Nat)
    (total min_size : Nat) : Option (List Nat) :=
  if total ≤ rounded.length * min_size then none
  else
    (fixDrift rounded
        (((total - rounded.length * min_size : Nat) : Int)
          - (rounded.sum : Int)) picks).map
      (fun ps => ps.map (fun p => p + min_size))

/-- `new_mc` for growing a cache by `unit`
(`InterpolateMRC(mrc, bucket_size, (new_size + unit) / entry_size) * vc`,
lines 124-126). -/
def gainNewMc (unit : Nat) (it : CacheItem) : Nat :=
  toU64 (interpolateMRC it.mrc it.bucket_size
    ((it.new_size + unit) / it.entry_size) * (it.vc : ℚ))

/-- `new_mc` for shrinking a cache by `unit` (lines 141-144). -/
def lossNewMc (unit : Nat) (it : CacheItem) : Nat :=
  toU64 (interpolateMRC it.mrc it.bucket_size
    ((it.new_size - unit) / it.entry_size) * (it.vc : ℚ))

/-- Index the items in iteration order (the `std::map` iteration of the
source corresponds to the list order of the model). -/
def enumFrom : Nat → List CacheItem → List (Nat × CacheItem)
  | _, [] => []
  | i, it :: rest => (i, it) :: enumFrom (i + 1) rest

/-- `gain > max_gain || max_gain_cache == nullptr` (line 128): first
candidate wins, later candidates replace only on strict improvement. -/
def betterGain (acc : Option (Nat × Nat × Nat)) (cand : Nat × Nat × Nat) :
    Option (Nat × Nat × Nat) :=
  match acc with
  | none => some cand
  | some best => if best.2.1 < cand.2.1 then some cand else some best

/-- `loss < min_loss || min_loss_cache == nullptr` (line 146). -/
def betterLoss (acc : Option (Nat × Nat × Nat)) (cand : Nat × Nat × Nat) :
    Option (Nat × Nat × Nat) :=
  match acc with
  | none => some cand
  | some best => if cand.2.1 < best.2.1 then some cand else some best

/-- The gainer scan (lines 122-133): every cache is a candidate with
`gain = mc - new_mc` (wrapping); returns (index, gain, gain_new_mc). -/
def selectGain (unit : Nat) (items : List CacheItem) :
    Option (Nat × Nat × Nat) :=
  ((enumFrom 0 items).map (fun p =>
    (p.1, u64sub p.2.mc (gainNewMc unit p.2), gainNewMc unit p.2))).foldl
    betterGain none

/-- The loser candidates (lines 135-151): skip the gainer and any cache
with `new_size <= min_size + unit`; `loss = new_mc - mc` (wrapping). -/
def lossCandidates (unit min_size g : Nat) (items : List CacheItem) :
    List (Nat × Nat × Nat) :=
  (enumFrom 0 items).filterMap (fun p =>
    if p.1 = g then none
    else if p.2.new_size ≤ min_size + unit then none
    else some (p.1, u64sub (lossNewMc unit p.2) p.2.mc, lossNewMc unit p.2))

def selectLoss (unit min_size g : Nat) (items : List CacheItem) :
    Option (Nat × Nat × Nat) :=
  (lossCandidates unit min_size g items).foldl betterLoss none

/-- The committed exchange (lines 155-158): `new_size += unit` and the
cached `mc` on the gainer, `new_size -= unit` and the cached `mc` on the
loser. -/
def applyExchange (unit g l gainMc lossMc : Nat)
    (items : List CacheItem) : List CacheItem :=
  ((items.set g
      { items.getD g default with
        new_size := (items.getD g default).new_size + unit
        mc := gainMc }).set l
    { (items.set g
        { items.getD g default with
          new_size := (items.getD g default).new_size + unit
          mc := gainMc }).getD l default with
      new_size := ((items.set g
          { items.getD g default with
            new_size := (items.getD g default).new_size + unit
            mc := gainMc }).getD l default).new_size - unit
      mc := lossMc })

/-- One iteration of the greedy-exchange `while (true)` loop (lines
119-159): `none` models `break`; otherwise move `unit` bytes from the
loser to the gainer and update both cached `mc` values. -/
def greedyStep (unit min_size : Nat) (items : List CacheItem) :
    Option (List CacheItem) :=
  match selectGain unit items with
  | none => none
  | some (g, maxGain, gainMc) =>
    match selectLoss unit min_size g items with
    | none => none
    | some (l, minLoss, lossMc) =>
      if maxGain ≤ minLoss then none
      else some (applyExchange unit g l gainMc lossMc items)

/-- The greedy loop, with an explicit iteration bound (every terminating
run of the source loop is some finite fuel; each step preserves the
invariants proved below). -/
def greedyLoop : Nat → Nat → Nat → List CacheItem → List CacheItem
  | 0, _, _, items => items
  | fuel + 1, unit, min_size, items =>
      match greedyStep unit min_size items with
      | none => items
      | some items1 => greedyLoop fuel unit min_size items1

/-- The random-apportion seeding step of `DoTune` (lines 106-117):
assign each cache its part, recompute `mr` by interpolation at the new
entry count and `mc = mr * vc`. -/
def applySeed (items : List CacheItem) (parts : List Nat) :
    List CacheItem :=
  List.zipWith (fun it p =>
    let mr := interpolateMRC it.mrc it.bucket_size (p / it.entry_size)
    { it with new_size := p, mr := mr, mc := toU64 (mr * (it.vc : ℚ)) })
    items parts

/-- `MinimalizeMissCountRandomGreedyTuningStrategy::DoTune` (lines
95-173): capture `orig_mc_sum`, random-apportion, greedy exchange, and
accept only when the new miss-count sum strictly decreased.  Returns the
success flag and the final items (`none` only when `RandomApportion`
hits its fatal guard or the pick sequence is exhausted). -/
def doTuneStrategy (total_size unit min_size : Nat)
    (items : List CacheItem) (rounded picks : List Nat) (fuel : Nat) :
    Option (Bool × List CacheItem) :=
  match randomApportion rounded picks total_size min_size with
  | none => none
  | some parts =>
      some (decide
        (sumU64 ((greedyLoop fuel unit min_size
            (applySeed items parts)).map (fun it => it.mc))
          < sumU64 (items.map (fun it => it.mc))),
        greedyLoop fuel unit min_size (applySeed items parts))

/-- `CacheManager::DoTune` (cache_manager.cc, lines 104-112): on
success, `SetCacheSize(new_size)` for every cache; on failure only the
decline counter moves and no cache size changes. -/
def managerApplyTune (oldSizes : List Nat)
    (res : Bool × List CacheItem) : List Nat :=
  if res.1 then res.2.map (fun it => it.new_size) else oldSizes

/-! #### Helper lemmas for the tuner proofs -/

theorem sum_set_getD : ∀ (l : List Nat) (i x : Nat), i < l.length →
    (l.set i x).sum + l.getD i 0 = l.sum + x := by
  intro l
  induction l with
  | nil => intro i x h; exact absurd h (by simp)
  | cons a rest ih =>
      intro i x h
      cases i with
      | zero => simp [List.set]; omega
      | succ j =>
          have hj : j < rest.length := by simpa using Nat.lt_of_succ_lt_succ h
          have := ih j x hj
          simp only [List.set, List.sum_cons, List.getD_cons_succ]
          omega

theorem sum_map_add_const : ∀ (l : List Nat) (m : Nat),
    (l.map (fun p => p + m)).sum = l.sum + l.length * m := by
  intro l m
  induction l with
  | nil => simp
  | cons a rest ih => simp [ih]; ring

theorem fixDrift_spec : ∀ (picks parts : List Nat) (remaining : Int)
    (res : List Nat), 0 < parts.length →
    fixDrift parts remaining picks = some res →
    (res.sum : Int) = (parts.sum : Int) + remaining ∧
      res.length = parts.length := by
  intro picks
  induction picks with
  | nil =>
      intro parts remaining res hlen h
      unfold fixDrift at h
      by_cases hr : remaining = 0
      · rw [if_pos hr] at h
        cases h
        simp [hr]
      · rw [if_neg hr] at h
        cases h
  | cons p rest ih =>
      intro parts remaining res hlen h
      unfold fixDrift at h
      by_cases hr : remaining = 0
      · rw [if_pos hr] at h
        cases h
        simp [hr]
      · rw [if_neg hr] at h
        set step : Int := if remaining > 0 then 1 else -1 with hstep
        set i := p % parts.length with hi
        have hilt : i < parts.length := Nat.mod_lt _ hlen
        by_cases hg : ((parts.getD i 0 : Int) + step) > 0
        · rw [if_pos hg] at h
          set v := ((parts.getD i 0 : Int) + step).toNat with hv
          have hlen1 : (parts.set i v).length = parts.length := by simp
          have hrec := ih (parts.set i v) (remaining - step) res
            (by rw [hlen1]; exact hlen) h
          have hs := sum_set_getD parts i v hilt
          have hs' : ((parts.set i v).sum : Int) + (parts.getD i 0 : Int)
              = (parts.sum : Int) + (v : Int) := by exact_mod_cast hs
          have hx : (v : Int) = (parts.getD i 0 : Int) + step :=
            Int.toNat_of_nonneg (le_of_lt hg)
          refine ⟨?_, by rw [hrec.2, hlen1]⟩
          rw [hrec.1]
          omega
        · rw [if_neg hg] at h
          exact ih parts remaining res hlen h

theorem randomApportion_spec (rounded picks : List Nat)
    (total min_size : Nat) (parts : List Nat) (hlen : 0 < rounded.length)
    (h : randomApportion rounded picks total min_size = some parts) :
    parts.sum = total ∧ parts.length = rounded.length ∧
      ∀ p ∈ parts, min_size ≤ p := by
  unfold randomApportion at h
  by_cases hg : total ≤ rounded.length * min_size
  · rw [if_pos hg] at h
    cases h
  · rw [if_neg hg] at h
    cases hfd : fixDrift rounded
        (((total - rounded.length * min_size : Nat) : Int)
          - (rounded.sum : Int)) picks with
    | none => rw [hfd] at h; cases h
    | some ps =>
        rw [hfd] at h
        have hps : ps.map (fun p => p + min_size) = parts := by
          simpa using h
        subst hps
        have hspec := fixDrift_spec picks rounded _ ps hlen hfd
        have hsum : (ps.sum : Int)
            = ((total - rounded.length * min_size : Nat) : Int) := by
          rw [hspec.1]; ring
        have hsumN : ps.sum = total - rounded.length * min_size := by
          exact_mod_cast hsum
        refine ⟨?_, by simp [hspec.2], ?_⟩
        · rw [sum_map_add_const, hsumN, hspec.2]
          omega
        · intro q hq
          rcases List.mem_map.mp hq with ⟨w, _, rfl⟩
          omega

theorem applySeed_map_new_size : ∀ (items : List CacheItem)
    (parts : List Nat), items.length = parts.length →
    (applySeed items parts).map (fun it => it.new_size) = parts := by
  intro items
  induction items with
  | nil =>
      intro parts h
      cases parts with
      | nil => rfl
      | cons p ps => simp at h
  | cons it rest ih =>
      intro parts h
      cases parts with
      | nil => simp at h
      | cons p ps =>
          have h1 : rest.length = ps.length := by
            simp only [List.length_cons] at h
            omega
          simp only [applySeed, List.zipWith_cons_cons, List.map_cons]
          exact congrArg (p :: ·) (ih ps h1)

theorem applySeed_mem_new_size : ∀ (items : List CacheItem)
    (parts : List Nat) (it : CacheItem), it ∈ applySeed items parts →
    it.new_size ∈ parts := by
  intro items
  induction items with
  | nil => intro parts it h; simp [applySeed] at h
  | cons x rest ih =>
      intro parts it h
      cases parts with
      | nil => simp [applySeed] at h
      | cons p ps =>
          simp only [applySeed, List.zipWith_cons_cons, List.mem_cons] at h
          rcases h with rfl | h
          · exact List.mem_cons_self p ps
          · exact List.mem_cons_of_mem p (ih ps it h)

theorem foldl_choice_mem {α : Type} (f : Option α → α → Option α)
    (hf : ∀ acc c r, f acc c = some r → acc = some r ∨ r = c) :
    ∀ (l : List α) (acc : Option α) (res : α),
      l.foldl f acc = some res → acc = some res ∨ res ∈ l := by
  intro l
  induction l with
  | nil => intro acc res h; exact Or.inl h
  | cons c rest ih =>
      intro acc res h
      rcases ih (f acc c) res h with hacc | hmem
      · rcases hf acc c res hacc with h1 | h2
        · exact Or.inl h1
        · exact Or.inr (h2 ▸ List.mem_cons_self c rest)
      · exact Or.inr (List.mem_cons_of_mem c hmem)

theorem betterGain_cases (acc : Option (Nat × Nat × Nat))
    (c r : Nat × Nat × Nat) (h : betterGain acc c = some r) :
    acc = some r ∨ r = c := by
  cases acc with
  | none =>
      right
      simp only [betterGain] at h
      exact (Option.some.inj h).symm
  | some best =>
      simp only [betterGain] at h
      by_cases hlt : best.2.1 < c.2.1
      · rw [if_pos hlt] at h
        right
        exact (Option.some.inj h).symm
      · rw [if_neg hlt] at h
        left
        rw [Option.some.inj h]

theorem betterLoss_cases (acc : Option (Nat × Nat × Nat))
    (c r : Nat × Nat × Nat) (h : betterLoss acc c = some r) :
    acc = some r ∨ r = c := by
  cases acc with
  | none =>
      right
      simp only [betterLoss] at h
      exact (Option.some.inj h).symm
  | some best =>
      simp only [betterLoss] at h
      by_cases hlt : c.2.1 < best.2.1
      · rw [if_pos hlt] at h
        right
        exact (Option.some.inj h).symm
      · rw [if_neg hlt] at h
        left
        rw [Option.some.inj h]

theorem mem_enumFrom : ∀ (l : List CacheItem) (n : Nat)
    (p : Nat × CacheItem), p ∈ enumFrom n l →
    n ≤ p.1 ∧ p.1 - n < l.length ∧ l.getD (p.1 - n) default = p.2 := by
  intro l
  induction l with
  | nil => intro n p h; simp [enumFrom] at h
  | cons it rest ih =>
      intro n p h
      simp only [enumFrom, List.mem_cons] at h
      rcases h with rfl | h
      · simp
      · obtain ⟨h1, h2, h3⟩ := ih (n + 1) p h
        refine ⟨by omega, by simp; omega, ?_⟩
        have hidx : p.1 - n = (p.1 - (n + 1)) + 1 := by omega
        rw [hidx, List.getD_cons_succ]
        exact h3

theorem getD_mem (l : List CacheItem) (i : Nat) (h : i < l.length) :
    l.getD i default ∈ l := by
  rw [List.getD_eq_getElem?_getD, List.getElem?_eq_getElem h]
  exact List.getElem_mem h

theorem getD_set_ne {α : Type} (l : List α) (i j : Nat) (x d : α)
    (hij : i ≠ j) : (l.set i x).getD j d = l.getD j d := by
  rw [List.getD_eq_getElem?_getD, List.getD_eq_getElem?_getD,
    List.getElem?_set_ne hij]

theorem getD_map_new_size (l : List CacheItem) (i : Nat)
    (h : i < l.length) :
    (l.map (fun it => it.new_size)).getD i 0
      = (l.getD i default).new_size := by
  rw [List.getD_eq_getElem?_getD, List.getD_eq_getElem?_getD,
    List.getElem?_map, List.getElem?_eq_getElem h]
  rfl

theorem selectGain_some (unit : Nat) (items : List CacheItem)
    (g gain gmc : Nat) (h : selectGain unit items = some (g, gain, gmc)) :
    g < items.length := by
  rcases foldl_choice_mem betterGain betterGain_cases _ none _ h with
    h1 | h2
  · cases h1
  · rcases List.mem_map.mp h2 with ⟨p, hp, hfp⟩
    obtain ⟨_, hlt, _⟩ := mem_enumFrom items 0 p hp
    have hg : p.1 = g := by
      have := congrArg Prod.fst hfp
      simpa using this
    omega

theorem selectLoss_some (unit min_size g : Nat) (items : List CacheItem)
    (l loss lmc : Nat)
    (h : selectLoss unit min_size g items = some (l, loss, lmc)) :
    l < items.length ∧ l ≠ g ∧
      min_size + unit < (items.getD l default).new_size := by
  rcases foldl_choice_mem betterLoss betterLoss_cases _ none _ h with
    h1 | h2
  · cases h1
  · rcases List.mem_filterMap.mp h2 with ⟨p, hp, hfp⟩
    obtain ⟨_, hlt, hget⟩ := mem_enumFrom items 0 p hp
    by_cases hpg : p.1 = g
    · rw [if_pos hpg] at hfp
      cases hfp
    · rw [if_neg hpg] at hfp
      by_cases hsz : p.2.new_size ≤ min_size + unit
      · rw [if_pos hsz] at hfp
        cases hfp
      · rw [if_neg hsz] at hfp
        have hl : p.1 = l := by
          have h4 := Option.some.inj hfp
          have := congrArg Prod.fst h4
          simpa using this
        subst hl
        simp only [Nat.sub_zero] at hget hlt
        refine ⟨hlt, hpg, ?_⟩
        rw [hget]
        omega

theorem applyExchange_preserves (unit min_size g l gainMc lossMc : Nat)
    (items : List CacheItem)
    (hg : g < items.length) (hl : l < items.length) (hlg : l ≠ g)
    (helig : min_size + unit < (items.getD l default).new_size)
    (hmin : ∀ it ∈ items, min_size ≤ it.new_size) :
    ((applyExchange unit g l gainMc lossMc items).map
        (fun it => it.new_size)).sum
      = (items.map (fun it => it.new_size)).sum ∧
    ∀ it ∈ applyExchange unit g l gainMc lossMc items,
      min_size ≤ it.new_size := by
  have hglne : g ≠ l := fun h => hlg h.symm
  have hitL : (items.set g
      { items.getD g default with
        new_size := (items.getD g default).new_size + unit
        mc := gainMc }).getD l default = items.getD l default :=
    getD_set_ne items g l _ default hglne
  constructor
  · have hmap : (applyExchange unit g l gainMc lossMc items).map
        (fun it => it.new_size)
        = ((items.map (fun it => it.new_size)).set g
            ((items.getD g default).new_size + unit)).set l
          ((items.getD l default).new_size - unit) := by
      rw [applyExchange, hitL, List.map_set, List.map_set]
    rw [hmap]
    have hgm : g < (items.map (fun it => it.new_size)).length := by
      simpa using hg
    have hlm : l < ((items.map (fun it => it.new_size)).set g
        ((items.getD g default).new_size + unit)).length := by
      simpa using hl
    have hs1 := sum_set_getD (items.map (fun it => it.new_size)) g
      ((items.getD g default).new_size + unit) hgm
    have hs2 := sum_set_getD
      ((items.map (fun it => it.new_size)).set g
        ((items.getD g default).new_size + unit)) l
      ((items.getD l default).new_size - unit) hlm
    have hgd1 : (items.map (fun it => it.new_size)).getD g 0
        = (items.getD g default).new_size := getD_map_new_size items g hg
    have hgd2 : ((items.map (fun it => it.new_size)).set g
        ((items.getD g default).new_size + unit)).getD l 0
        = (items.getD l default).new_size := by
      rw [getD_set_ne _ g l _ 0 hglne]
      exact getD_map_new_size items l hl
    rw [hgd1] at hs1
    rw [hgd2] at hs2
    omega
  · intro it hit
    rw [applyExchange, hitL] at hit
    rcases List.mem_or_eq_of_mem_set hit with hit1 | rfl
    · rcases List.mem_or_eq_of_mem_set hit1 with hit2 | rfl
      · exact hmin it hit2
      · have : min_size ≤ (items.getD g default).new_size :=
          hmin _ (getD_mem items g hg)
        simp only []
        omega
    · simp only []
      omega

theorem greedyStep_preserves (unit min_size : Nat)
    (items res : List CacheItem)
    (hmin : ∀ it ∈ items, min_size ≤ it.new_size)
    (h : greedyStep unit min_size items = some res) :
    (res.map (fun it => it.new_size)).sum
      = (items.map (fun it => it.new_size)).sum ∧
    ∀ it ∈ res, min_size ≤ it.new_size := by
  unfold greedyStep at h
  cases hga : selectGain unit items with
  | none => rw [hga] at h; cases h
  | some gt =>
      obtain ⟨g, maxGain, gainMc⟩ := gt
      rw [hga] at h
      dsimp only [] at h
      cases hlo : selectLoss unit min_size g items with
      | none => rw [hlo] at h; cases h
      | some lt =>
          obtain ⟨l, minLoss, lossMc⟩ := lt
          rw [hlo] at h
          dsimp only [] at h
          by_cases hle : maxGain ≤ minLoss
          · rw [if_pos hle] at h; cases h
          · rw [if_neg hle] at h
            have hres : applyExchange unit g l gainMc lossMc items = res :=
              Option.some.inj h
            obtain ⟨hl, hlg, helig⟩ :=
              selectLoss_some unit min_size g items l minLoss lossMc hlo
            have hg := selectGain_some unit items g maxGain gainMc hga
            rw [← hres]
            exact applyExchange_preserves unit min_size g l gainMc lossMc
              items hg hl hlg helig hmin

theorem greedyLoop_preserves : ∀ (fuel unit min_size : Nat)
    (items : List CacheItem),
    (∀ it ∈ items, min_size ≤ it.new_size) →
    ((greedyLoop fuel unit min_size items).map
        (fun it => it.new_size)).sum
      = (items.map (fun it => it.new_size)).sum ∧
    ∀ it ∈ greedyLoop fuel unit min_size items, min_size ≤ it.new_size := by
  intro fuel
  induction fuel with
  | zero => intro unit min_size items hmin; exact ⟨rfl, hmin⟩
  | succ f ih =>
      intro unit min_size items hmin
      unfold greedyLoop
      cases hstep : greedyStep unit min_size items with
      | none => exact ⟨rfl, hmin⟩
      | some items1 =>
          obtain ⟨hsum1, hmin1⟩ :=
            greedyStep_preserves unit min_size items items1 hmin hstep
          obtain ⟨hsum2, hmin2⟩ := ih unit min_size items1 hmin1
          exact ⟨by rw [hsum2, hsum1], hmin2⟩

/-- **C3.** Under the precondition `total_size > num_caches * min_size`,
when the random-greedy strategy's `DoTune` runs to completion (random
draws and greedy iterations given as parameters), the resulting
`new_size` values sum to exactly the total budget (hence within `±u`)
and every cache's `new_size` is at least `min_size` — whether or not the
result is committed. -/
theorem tuner_safety_sum_and_min
    (total unit min_size fuel : Nat) (items : List CacheItem)
    (rounded picks : List Nat) (flag : Bool) (final : List CacheItem)
    (hlen : rounded.length = items.length)
    (hpos : 0 < items.length)
    (hpre : items.length * min_size < total)
    (hres : doTuneStrategy total unit min_size items rounded picks fuel
      = some (flag, final)) :
    (final.map (fun it => it.new_size)).sum = total ∧
    ∀ it ∈ final, min_size ≤ it.new_size := by
  unfold doTuneStrategy at hres
  cases hap : randomApportion rounded picks total min_size with
  | none => rw [hap] at hres; cases hres
  | some parts =>
      rw [hap] at hres
      have hpair := Option.some.inj hres
      have hfin : greedyLoop fuel unit min_size (applySeed items parts)
          = final := congrArg Prod.snd hpair
      obtain ⟨hsum, hplen, hmins⟩ := randomApportion_spec rounded picks
        total min_size parts (by omega) hap
      have hlen2 : items.length = parts.length := by omega
      have hseedmap : (applySeed items parts).map (fun it => it.new_size)
          = parts := applySeed_map_new_size items parts hlen2
      have hseedmin : ∀ it ∈ applySeed items parts,
          min_size ≤ it.new_size := fun it hit =>
        hmins _ (applySeed_mem_new_size items parts it hit)
      obtain ⟨hgsum, hgmin⟩ := greedyLoop_preserves fuel unit min_size
        (applySeed items parts) hseedmin
      rw [hfin] at hgsum hgmin
      refine ⟨?_, hgmin⟩
      rw [hgsum, hseedmap, hsum]

/-- Witness input for C3: two identical caches, `vc = 0` (so the re-
estimated miss counts vanish), budget 10, floor 1, seed parts `[4,4]`. -/
def witItemC3 : CacheItem := ⟨1, 3, 3, 1, 0, 5, 0, [1, 0, 9]⟩

def witFinalC3 : CacheItem := ⟨1, 3, 5, 1, 0, 0, 0, [1, 0, 9]⟩

theorem witC3_interp : interpolateMRC [1, 0, 9] 1 5 = 0 := by
  norm_num [interpolateMRC]

theorem witC3_mc : toU64 0 = 0 := by
  rw [toU64]
  decide

theorem witC3_seed : applySeed [witItemC3, witItemC3] [5, 5]
    = [witFinalC3, witFinalC3] := by
  simp only [applySeed, List.zipWith_cons_cons, List.zipWith_nil_right]
  norm_num [witItemC3, witFinalC3, witC3_interp, witC3_mc]

theorem witC3_res : doTuneStrategy 10 1 1 [witItemC3, witItemC3] [4, 4] [] 0
    = some (true, [witFinalC3, witFinalC3]) := by
  have hap : randomApportion [4, 4] [] 10 1 = some [5, 5] := by decide
  rw [doTuneStrategy, hap]
  dsimp only []
  rw [witC3_seed]
  norm_num [greedyLoop, sumU64, witItemC3, witFinalC3]

/-- Witness for C3 at a concrete committed tune. -/
theorem tuner_safety_sum_and_min_witness :
    ([witFinalC3, witFinalC3].map (fun it => it.new_size)).sum = 10 ∧
    ∀ it ∈ [witFinalC3, witFinalC3], 1 ≤ it.new_size :=
  tuner_safety_sum_and_min 10 1 1 0 [witItemC3, witItemC3] [4, 4] []
    true [witFinalC3, witFinalC3] rfl (by decide) (by decide) witC3_res

/-- **C5.** `DoTune` reports success iff the final estimated miss-count
sum is strictly below the original one (`new_mc_sum < orig_mc_sum`,
lines 161-172), and on failure `CacheManager::DoTune` calls
`SetCacheSize` on no cache, leaving every size unchanged. -/
theorem tuner_acceptance_gate
    (total unit min_size fuel : Nat) (items : List CacheItem)
    (rounded picks oldSizes : List Nat) (flag : Bool)
    (final : List CacheItem)
    (hres : doTuneStrategy total unit min_size items rounded picks fuel
      = some (flag, final)) :
    (flag = true ↔ sumU64 (final.map (fun it => it.mc))
        < sumU64 (items.map (fun it => it.mc))) ∧
    (flag = false → managerApplyTune oldSizes (flag, final) = oldSizes) := by
  unfold doTuneStrategy at hres
  cases hap : randomApportion rounded picks total min_size with
  | none => rw [hap] at hres; cases hres
  | some parts =>
      rw [hap] at hres
      have hpair := Option.some.inj hres
      have hflag : decide
          (sumU64 ((greedyLoop fuel unit min_size
              (applySeed items parts)).map (fun it => it.mc))
            < sumU64 (items.map (fun it => it.mc))) = flag :=
        congrArg Prod.fst hpair
      have hfin : greedyLoop fuel unit min_size (applySeed items parts)
          = final := congrArg Prod.snd hpair
      constructor
      · rw [← hflag, ← hfin]
        simp
      · intro hf
        simp [managerApplyTune, hf]

/-- Witness input for C5: one cache whose re-estimated miss count (5)
is not below the original (0), so the gate declines. -/
def witItemC5 : CacheItem := ⟨1, 10, 10, 1, 5, 0, 1, [1, 1, 99]⟩

def witFinalC5 : CacheItem := ⟨1, 10, 10, 1, 5, 5, 1, [1, 1, 99]⟩

theorem witC5_interp : interpolateMRC [1, 1, 99] 1 10 = 1 := by
  norm_num [interpolateMRC]

theorem witC5_mc : toU64 5 = 5 := by
  rw [toU64]
  decide

theorem witC5_seed : applySeed [witItemC5] [10] = [witFinalC5] := by
  simp only [applySeed, List.zipWith_cons_cons, List.zipWith_nil_right]
  norm_num [witItemC5, witFinalC5, witC5_interp, witC5_mc]

theorem witC5_res : doTuneStrategy 10 1 1 [witItemC5] [9] [] 0
    = some (false, [witFinalC5]) := by
  have hap : randomApportion [9] [] 10 1 = some [10] := by decide
  rw [doTuneStrategy, hap]
  dsimp only []
  rw [witC5_seed]
  norm_num [greedyLoop, sumU64, witItemC5, witFinalC5]

/-- Witness for C5 at a concrete declined tune. -/
theorem tuner_acceptance_gate_witness :
    (false = true ↔ sumU64 ([witFinalC5].map (fun it => it.mc))
        < sumU64 ([witItemC5].map (fun it => it.mc))) ∧
    (false = false → managerApplyTune [10] (false, [witFinalC5]) = [10]) :=
  tuner_acceptance_gate 10 1 1 0 [witItemC5] [9] [] [10] false
    [witFinalC5] witC5_res

/-! ### SamplingLRUAETProfiler::GetMRC (cache_profiler.h, lines 127-222)

The histogram snapshot is `hist`; `unseen` is the "unseen mass" added
to `reuse_time_sum` before the bucket loop (`hist[0]` when
`sampling_interval != 1`, else the number of live last-access cells);
`timestamp` is the logical clock appended as the last element.

Doubles are modelled as `Option ℚ` with `none` for NaN: exact rationals
for every value this code path produces, except that
`0.0 / 0.0 = NaN` when `reuse_time_sum = 0` (a fresh or freshly reset
profiler).  NaN propagates through `+`, and every comparison with NaN
(`<`, `==`, `>=`) is false.  The `...Q` definitions below are the
exact-rational shadow of the pipeline — the values it takes whenever
`reuse_time_sum ≠ 0`, where no NaN arises — and the `Option ℚ`
definitions after them are the faithful embedding; the correspondence
is proved in `getMRC_eq_map_some`. -/

/-- `prefix_sum[i]` (lines 151-160, after the `pop_back`): the sum of
histogram buckets `1..i`; `tl` is the histogram without bucket 0. -/
def ccdfPrefix (tl : List Nat) (i : Nat) : Nat := (tl.take i).sum

/-- `reuse_time_sum` (lines 138-158). -/
def reuseTimeSum (tl : List Nat) (unseen : Nat) : Nat := unseen + tl.sum

/-- Rational shadow of `prob_greater[i]` (lines 162-168): 1.0 at index
0, else the complementary CDF
`(reuse_time_sum - prefix_sum[i]) / reuse_time_sum`; exact for
`reuse_time_sum ≠ 0` (see `probGreater` for the NaN case). -/
def probGreaterQ (tl : List Nat) (unseen : Nat) (i : Nat) : ℚ :=
  if i = 0 then 1
  else ((reuseTimeSum tl unseen : ℚ) - (ccdfPrefix tl i : ℚ))
    / (reuseTimeSum tl unseen : ℚ)

/-- Rational shadow of the inner
`while (integral < c && t < num_elem - 1)` loop (lines 198-201).  The
fuel `tLim - t` makes the recursion structural and is exact: when it
reaches 0 we have `t >= tLim`, where the source loop stops as well. -/
def mrcAdvanceQ (pg : Nat → ℚ) (tLim c : Nat) :
    Nat → ℚ → Nat → ℚ × Nat
  | 0, integral, t => (integral, t)
  | fuel + 1, integral, t =>
      if integral < (c : ℚ) ∧ t < tLim then
        mrcAdvanceQ pg tLim c fuel (integral + pg t) (t + 1)
      else (integral, t)

/-- Rational shadow of the outer `for (c = 0; c < num_mrc_elem; ++c)`
loop (lines 196-206): advance the integral toward `c`, emit
`prob_greater[t - 1]`, break after emitting once `t` reaches
`num_elem - 1`.  (At `c = 0` the source reads
`prob_greater[(size_t)-1]`, an out-of-bounds read whose value is
overwritten with 1.0 at line 218; the model's Nat-truncated index 0 is
observationally equivalent.) -/
def mrcLoopQ (pg : Nat → ℚ) (tLim : Nat) : Nat → Nat → ℚ → Nat → List ℚ
  | 0, _, _, _ => []
  | rem + 1, c, integral, t =>
      if tLim ≤ (mrcAdvanceQ pg tLim c (tLim - t) integral t).2 then
        [pg ((mrcAdvanceQ pg tLim c (tLim - t) integral t).2 - 1)]
      else
        pg ((mrcAdvanceQ pg tLim c (tLim - t) integral t).2 - 1) ::
          mrcLoopQ pg tLim rem (c + 1)
            (mrcAdvanceQ pg tLim c (tLim - t) integral t).1
            (mrcAdvanceQ pg tLim c (tLim - t) integral t).2

/-- Rational shadow of the trailing-plateau trim (lines 208-215),
viewed on the reversed result list:
`while (size > 2 && result[s] == result[s-1]) pop_back`. -/
def trimRevAuxQ : List ℚ → List ℚ
  | a :: b :: c :: rest =>
      if a = b then trimRevAuxQ (b :: c :: rest) else a :: b :: c :: rest
  | l => l

/-- Rational shadow of `GetMRC(max_cache_size)` (lines 127-222):
integrate the CCDF into `max_cache_size / bucket_size + 1` MRC points,
trim the trailing plateau, append the logical clock, and set
`result[0] = 1.0`; equal to the faithful `getMRC` (up to `some`)
whenever `reuse_time_sum ≠ 0`. -/
def getMRCQ (hist : List Nat)
    (unseen timestamp maxCacheSize bucketSize : Nat) : List ℚ :=
  match (trimRevAuxQ (mrcLoopQ (probGreaterQ (hist.drop 1) unseen)
        (hist.length - 1) (maxCacheSize / bucketSize + 1) 0 0 0).reverse).reverse
      ++ [(timestamp : ℚ)] with
  | [] => []
  | _ :: rest => 1 :: rest

/-! #### CCDF properties -/

theorem ccdfPrefix_le_sum (tl : List Nat) (i : Nat) :
    ccdfPrefix tl i ≤ tl.sum := by
  conv_rhs => rw [← List.take_append_drop i tl]
  rw [List.sum_append]
  exact Nat.le_add_right _ _

theorem ccdfPrefix_mono (tl : List Nat) {i j : Nat} (h : i ≤ j) :
    ccdfPrefix tl i ≤ ccdfPrefix tl j := by
  unfold ccdfPrefix
  have : j = i + (j - i) := by omega
  rw [this, List.take_add, List.sum_append]
  exact Nat.le_add_right _ _

theorem probGreaterQ_le_one (tl : List Nat) (unseen i : Nat) :
    probGreaterQ tl unseen i ≤ 1 := by
  unfold probGreaterQ
  by_cases h0 : i = 0
  · rw [if_pos h0]
  · rw [if_neg h0]
    rcases eq_or_lt_of_le
        (show (0 : ℚ) ≤ (reuseTimeSum tl unseen : ℚ) by positivity) with
      hS | hS
    · rw [← hS, div_zero]
      norm_num
    · rw [div_le_one hS]
      have : (0 : ℚ) ≤ (ccdfPrefix tl i : ℚ) := by positivity
      linarith

theorem probGreaterQ_zero (tl : List Nat) (unseen : Nat) :
    probGreaterQ tl unseen 0 = 1 := by
  unfold probGreaterQ
  rw [if_pos rfl]

theorem probGreaterQ_anti (tl : List Nat) (unseen : Nat) {i j : Nat}
    (h : i ≤ j) :
    probGreaterQ tl unseen j ≤ probGreaterQ tl unseen i := by
  by_cases hi : i = 0
  · rw [hi, probGreaterQ_zero]
    exact probGreaterQ_le_one tl unseen j
  · have hj : j ≠ 0 := by omega
    unfold probGreaterQ
    rw [if_neg hi, if_neg hj]
    rcases eq_or_lt_of_le
        (show (0 : ℚ) ≤ (reuseTimeSum tl unseen : ℚ) by positivity) with
      hS | hS
    · rw [← hS, div_zero, div_zero]
    · rw [div_le_div_iff_of_pos_right hS]
      have hmono : (ccdfPrefix tl i : ℚ) ≤ (ccdfPrefix tl j : ℚ) := by
        exact_mod_cast ccdfPrefix_mono tl h
      linarith

/-! #### Loop properties -/

theorem mrcAdvanceQ_t_le (pg : Nat → ℚ) (tLim c : Nat) :
    ∀ (fuel : Nat) (integral : ℚ) (t : Nat),
      t ≤ (mrcAdvanceQ pg tLim c fuel integral t).2 := by
  intro fuel
  induction fuel with
  | zero => intro integral t; exact Nat.le_refl t
  | succ f ih =>
      intro integral t
      unfold mrcAdvanceQ
      by_cases hc : integral < (c : ℚ) ∧ t < tLim
      · rw [if_pos hc]
        exact Nat.le_trans (Nat.le_succ t) (ih (integral + pg t) (t + 1))
      · rw [if_neg hc]

theorem mrcLoopQ_le_and_chain (pg : Nat → ℚ) (tLim : Nat)
    (hanti : ∀ i j : Nat, i ≤ j → pg j ≤ pg i) :
    ∀ (rem c : Nat) (integral : ℚ) (t : Nat),
      (∀ x ∈ mrcLoopQ pg tLim rem c integral t, x ≤ pg (t - 1)) ∧
      List.Chain' (fun a b => b ≤ a) (mrcLoopQ pg tLim rem c integral t) := by
  intro rem
  induction rem with
  | zero =>
      intro c integral t
      unfold mrcLoopQ
      exact ⟨fun x hx => absurd hx (List.not_mem_nil x), List.chain'_nil⟩
  | succ r ih =>
      intro c integral t
      have ht1 : t ≤ (mrcAdvanceQ pg tLim c (tLim - t) integral t).2 :=
        mrcAdvanceQ_t_le pg tLim c (tLim - t) integral t
      have hv : pg ((mrcAdvanceQ pg tLim c (tLim - t) integral t).2 - 1)
          ≤ pg (t - 1) := hanti _ _ (by omega)
      unfold mrcLoopQ
      by_cases hstop : tLim ≤ (mrcAdvanceQ pg tLim c (tLim - t) integral t).2
      · rw [if_pos hstop]
        refine ⟨?_, List.chain'_singleton _⟩
        intro x hx
        rw [List.mem_singleton] at hx
        rw [hx]
        exact hv
      · rw [if_neg hstop]
        obtain ⟨ihmem, ihchain⟩ := ih (c + 1)
          (mrcAdvanceQ pg tLim c (tLim - t) integral t).1
          (mrcAdvanceQ pg tLim c (tLim - t) integral t).2
        constructor
        · intro x hx
          rcases List.mem_cons.mp hx with rfl | hx2
          · exact hv
          · exact le_trans (ihmem x hx2) hv
        · refine List.Chain'.cons' ihchain ?_
          intro y hy
          have hymem : y ∈ mrcLoopQ pg tLim r (c + 1)
              (mrcAdvanceQ pg tLim c (tLim - t) integral t).1
              (mrcAdvanceQ pg tLim c (tLim - t) integral t).2 :=
            List.mem_of_mem_head? hy
          exact ihmem y hymem

theorem mrcLoopQ_ne_nil (pg : Nat → ℚ) (tLim rem c : Nat) (integral : ℚ)
    (t : Nat) (hrem : rem ≠ 0) :
    mrcLoopQ pg tLim rem c integral t ≠ [] := by
  cases rem with
  | zero => exact absurd rfl hrem
  | succ r =>
      unfold mrcLoopQ
      by_cases hstop : tLim ≤ (mrcAdvanceQ pg tLim c (tLim - t) integral t).2
      · rw [if_pos hstop]; simp
      · rw [if_neg hstop]; simp

/-! #### Trim properties -/

theorem trimRevAuxQ_subset : ∀ (l : List ℚ) (x : ℚ),
    x ∈ trimRevAuxQ l → x ∈ l := by
  intro l
  induction l with
  | nil => intro x hx; exact hx
  | cons a l1 ih =>
      intro x hx
      cases l1 with
      | nil => exact hx
      | cons b l2 =>
          cases l2 with
          | nil => exact hx
          | cons c rest =>
              by_cases hab : a = b
              · rw [show trimRevAuxQ (a :: b :: c :: rest)
                    = trimRevAuxQ (b :: c :: rest) by
                  rw [trimRevAuxQ]; rw [if_pos hab]] at hx
                exact List.mem_cons_of_mem a (ih x hx)
              · rw [show trimRevAuxQ (a :: b :: c :: rest)
                    = a :: b :: c :: rest by
                  rw [trimRevAuxQ]; rw [if_neg hab]] at hx
                exact hx

theorem trimRevAuxQ_chain (R : ℚ → ℚ → Prop) : ∀ (l : List ℚ),
    List.Chain' R l → List.Chain' R (trimRevAuxQ l) := by
  intro l
  induction l with
  | nil => intro h; exact h
  | cons a l1 ih =>
      intro h
      cases l1 with
      | nil => exact h
      | cons b l2 =>
          cases l2 with
          | nil => exact h
          | cons c rest =>
              by_cases hab : a = b
              · rw [show trimRevAuxQ (a :: b :: c :: rest)
                    = trimRevAuxQ (b :: c :: rest) by
                  rw [trimRevAuxQ]; rw [if_pos hab]]
                exact ih h.tail
              · rw [show trimRevAuxQ (a :: b :: c :: rest)
                    = a :: b :: c :: rest by
                  rw [trimRevAuxQ]; rw [if_neg hab]]
                exact h

theorem trimRevAuxQ_ne_nil : ∀ (l : List ℚ), l ≠ [] →
    trimRevAuxQ l ≠ [] := by
  intro l
  induction l with
  | nil => intro h; exact absurd rfl h
  | cons a l1 ih =>
      intro _
      cases l1 with
      | nil => simp [trimRevAuxQ]
      | cons b l2 =>
          cases l2 with
          | nil => simp [trimRevAuxQ]
          | cons c rest =>
              by_cases hab : a = b
              · rw [show trimRevAuxQ (a :: b :: c :: rest)
                    = trimRevAuxQ (b :: c :: rest) by
                  rw [trimRevAuxQ]; rw [if_pos hab]]
                exact ih (by simp)
              · rw [show trimRevAuxQ (a :: b :: c :: rest)
                    = a :: b :: c :: rest by
                  rw [trimRevAuxQ]; rw [if_neg hab]]
                simp

theorem chain_getD (l : List ℚ) (hch : List.Chain' (fun a b => b ≤ a) l) :
    ∀ i : Nat, i + 1 < l.length → l.getD (i + 1) 0 ≤ l.getD i 0 := by
  intro i hi
  have h1 : i < l.length - 1 := by omega
  have := List.chain'_iff_get.mp hch i h1
  have hgd1 : l.getD i 0 = l.get ⟨i, by omega⟩ := by
    rw [List.getD_eq_getElem?_getD, List.getElem?_eq_getElem (by omega)]
    rfl
  have hgd2 : l.getD (i + 1) 0 = l.get ⟨i + 1, by omega⟩ := by
    rw [List.getD_eq_getElem?_getD, List.getElem?_eq_getElem (by omega)]
    rfl
  rw [hgd1, hgd2]
  exact this

/-- The rational shadow of `GetMRC` has `result[0] = 1.0` and is
monotonically non-increasing up to its second-to-last element — the
`reuse_time_sum ≠ 0` half of the amended C2, transported to the
faithful model by `getMRC_eq_map_some`. -/
theorem getMRCQ_head_one_and_monotone (hist : List Nat)
    (unseen timestamp maxCacheSize bucketSize : Nat) :
    (getMRCQ hist unseen timestamp maxCacheSize bucketSize).getD 0 0 = 1 ∧
    ∀ i : Nat,
      i + 2 < (getMRCQ hist unseen timestamp maxCacheSize bucketSize).length →
      (getMRCQ hist unseen timestamp maxCacheSize bucketSize).getD (i + 1) 0
        ≤ (getMRCQ hist unseen timestamp maxCacheSize bucketSize).getD i 0
    := by
  have hanti : ∀ i j : Nat, i ≤ j →
      probGreaterQ (hist.drop 1) unseen j
        ≤ probGreaterQ (hist.drop 1) unseen i :=
    fun i j h => probGreaterQ_anti (hist.drop 1) unseen h
  obtain ⟨hmem, hchain⟩ := mrcLoopQ_le_and_chain
    (probGreaterQ (hist.drop 1) unseen) (hist.length - 1) hanti
    (maxCacheSize / bucketSize + 1) 0 0 0
  have hmem1 : ∀ x ∈ mrcLoopQ (probGreaterQ (hist.drop 1) unseen)
      (hist.length - 1) (maxCacheSize / bucketSize + 1) 0 0 0, x ≤ 1 := by
    intro x hx
    have h1 := hmem x hx
    rwa [Nat.zero_sub, probGreaterQ_zero] at h1
  have hrawne : mrcLoopQ (probGreaterQ (hist.drop 1) unseen)
      (hist.length - 1) (maxCacheSize / bucketSize + 1) 0 0 0 ≠ [] :=
    mrcLoopQ_ne_nil _ _ _ _ _ _ (Nat.succ_ne_zero _)
  have htrne : (trimRevAuxQ (mrcLoopQ (probGreaterQ (hist.drop 1) unseen)
      (hist.length - 1) (maxCacheSize / bucketSize + 1) 0 0
      0).reverse).reverse ≠ [] := by
    simp only [ne_eq, List.reverse_eq_nil_iff]
    exact trimRevAuxQ_ne_nil _ (by simpa using hrawne)
  have htrchain : List.Chain' (fun a b => b ≤ a)
      ((trimRevAuxQ (mrcLoopQ (probGreaterQ (hist.drop 1) unseen)
        (hist.length - 1) (maxCacheSize / bucketSize + 1) 0 0
        0).reverse).reverse) :=
    List.chain'_reverse.mpr (trimRevAuxQ_chain _ _
      (List.chain'_reverse.mpr hchain))
  have htrsub : ∀ x ∈ (trimRevAuxQ (mrcLoopQ (probGreaterQ (hist.drop 1)
      unseen) (hist.length - 1) (maxCacheSize / bucketSize + 1) 0 0
      0).reverse).reverse,
      x ∈ mrcLoopQ (probGreaterQ (hist.drop 1) unseen) (hist.length - 1)
        (maxCacheSize / bucketSize + 1) 0 0 0 := by
    intro x hx
    rw [List.mem_reverse] at hx
    have := trimRevAuxQ_subset _ x hx
    rwa [List.mem_reverse] at this
  obtain ⟨h0, tl0, htl0⟩ := List.exists_cons_of_ne_nil htrne
  have hg : getMRCQ hist unseen timestamp maxCacheSize bucketSize
      = 1 :: (tl0 ++ [(timestamp : ℚ)]) := by
    unfold getMRCQ
    rw [htl0, List.cons_append]
  rw [hg]
  constructor
  · rfl
  · intro i hlen
    have hlen2 : i + 2 < tl0.length + 2 := by simpa using hlen
    have hi : i < tl0.length := by omega
    have e1 : (1 : ℚ) :: (tl0 ++ [(timestamp : ℚ)])
        = ((1 : ℚ) :: tl0) ++ [(timestamp : ℚ)] := by simp
    rw [e1, List.getD_append _ _ 0 i
        (by simp only [List.length_cons]; omega),
      List.getD_append _ _ 0 (i + 1)
        (by simp only [List.length_cons]; omega)]
    have hchain1 : List.Chain' (fun a b => b ≤ a) ((1 : ℚ) :: tl0) := by
      refine List.Chain'.cons' ?_ ?_
      · have h2 := htrchain
        rw [htl0] at h2
        exact h2.tail
      · intro y hy
        have hymem : y ∈ tl0 := List.mem_of_mem_head? hy
        have hytr : y ∈ (trimRevAuxQ (mrcLoopQ (probGreaterQ (hist.drop 1)
            unseen) (hist.length - 1) (maxCacheSize / bucketSize + 1) 0 0
            0).reverse).reverse := by
          rw [htl0]
          exact List.mem_cons_of_mem _ hymem
        exact hmem1 y (htrsub y hytr)
    exact chain_getD _ hchain1 i (by simp only [List.length_cons]; omega)

/-! #### The faithful model: doubles as `Option ℚ`, `none` = NaN -/

/-- IEEE addition on this code path: NaN propagates. -/
def dAdd : Option ℚ → Option ℚ → Option ℚ
  | some a, some b => some (a + b)
  | _, _ => none

/-- `integral < c` with `integral` a double and `c` a `uint64_t`
converted to double: false when `integral` is NaN. -/
def dLtNat (a : Option ℚ) (c : Nat) : Bool :=
  match a with
  | some x => decide (x < (c : ℚ))
  | none => false

/-- `result[s] == result[s-1]` on doubles: false when either side is
NaN (`NaN == NaN` is false). -/
def dBeq : Option ℚ → Option ℚ → Bool
  | some a, some b => a == b
  | _, _ => false

/-- The claim's `result[i] >= result[i+1]` on doubles: any comparison
with NaN is false. -/
def dGe : Option ℚ → Option ℚ → Prop
  | some x, some y => y ≤ x
  | _, _ => False

/-- `prob_greater[i]` (lines 162-168), faithful: 1.0 at index 0; for
`i ≥ 1` the numerator `reuse_time_sum - prefix_sum[i]` is a `uint64_t`
difference with `prefix_sum[i] ≤ reuse_time_sum`
(`ccdfPrefix_le_sum`), so when `reuse_time_sum = 0` both operands of
the division are 0 and the double quotient `0.0 / 0.0` is NaN;
otherwise the quotient is an exact rational. -/
def probGreater (tl : List Nat) (unseen : Nat) (i : Nat) : Option ℚ :=
  if i = 0 then some 1
  else if reuseTimeSum tl unseen = 0 then none
  else some (((reuseTimeSum tl unseen : ℚ) - (ccdfPrefix tl i : ℚ))
    / (reuseTimeSum tl unseen : ℚ))

/-- The inner `while (integral < c && t < num_elem - 1)` loop (lines
198-201) on doubles; a NaN integral fails the comparison and exits.
The fuel `tLim - t` makes the recursion structural and is exact. -/
def mrcAdvance (pg : Nat → Option ℚ) (tLim c : Nat) :
    Nat → Option ℚ → Nat → Option ℚ × Nat
  | 0, integral, t => (integral, t)
  | fuel + 1, integral, t =>
      if dLtNat integral c = true ∧ t < tLim then
        mrcAdvance pg tLim c fuel (dAdd integral (pg t)) (t + 1)
      else (integral, t)

/-- The outer `for (c = 0; c < num_mrc_elem; ++c)` loop (lines 196-206)
on doubles.  (At `c = 0` the source reads `prob_greater[(size_t)-1]`,
an out-of-bounds read whose value is overwritten with 1.0 at line 218;
the model's Nat-truncated index 0 is observationally equivalent.) -/
def mrcLoop (pg : Nat → Option ℚ) (tLim : Nat) :
    Nat → Nat → Option ℚ → Nat → List (Option ℚ)
  | 0, _, _, _ => []
  | rem + 1, c, integral, t =>
      if tLim ≤ (mrcAdvance pg tLim c (tLim - t) integral t).2 then
        [pg ((mrcAdvance pg tLim c (tLim - t) integral t).2 - 1)]
      else
        pg ((mrcAdvance pg tLim c (tLim - t) integral t).2 - 1) ::
          mrcLoop pg tLim rem (c + 1)
            (mrcAdvance pg tLim c (tLim - t) integral t).1
            (mrcAdvance pg tLim c (tLim - t) integral t).2

/-- The trailing-plateau trim (lines 208-215) on doubles, viewed on the
reversed result list; a NaN is never popped since `NaN == NaN` is
false. -/
def trimRevAux : List (Option ℚ) → List (Option ℚ)
  | a :: b :: c :: rest =>
      if dBeq a b = true then trimRevAux (b :: c :: rest)
      else a :: b :: c :: rest
  | l => l

/-- `GetMRC(max_cache_size)` (lines 127-222), faithful to the double
arithmetic: integrate the CCDF into `max_cache_size / bucket_size + 1`
MRC points, trim the trailing plateau, append the logical clock, and
set `result[0] = 1.0`. -/
def getMRC (hist : List Nat)
    (unseen timestamp maxCacheSize bucketSize : Nat) : List (Option ℚ) :=
  match (trimRevAux (mrcLoop (probGreater (hist.drop 1) unseen)
        (hist.length - 1) (maxCacheSize / bucketSize + 1) 0 (some 0)
        0).reverse).reverse
      ++ [some (timestamp : ℚ)] with
  | [] => []
  | _ :: rest => some 1 :: rest

/-! #### Correspondence with the rational shadow when
`reuse_time_sum ≠ 0` -/

theorem probGreater_some (tl : List Nat) (unseen : Nat)
    (hS : reuseTimeSum tl unseen ≠ 0) (i : Nat) :
    probGreater tl unseen i = some (probGreaterQ tl unseen i) := by
  unfold probGreater probGreaterQ
  by_cases h0 : i = 0
  · rw [if_pos h0, if_pos h0]
  · rw [if_neg h0, if_neg h0, if_neg hS]

theorem mrcAdvance_map_some (pgO : Nat → Option ℚ) (pgR : Nat → ℚ)
    (hpg : ∀ i, pgO i = some (pgR i)) (tLim c : Nat) :
    ∀ (fuel : Nat) (q : ℚ) (t : Nat),
      mrcAdvance pgO tLim c fuel (some q) t
        = (some (mrcAdvanceQ pgR tLim c fuel q t).1,
           (mrcAdvanceQ pgR tLim c fuel q t).2) := by
  intro fuel
  induction fuel with
  | zero => intro q t; rfl
  | succ f ih =>
      intro q t
      unfold mrcAdvance mrcAdvanceQ
      have hcond : (dLtNat (some q) c = true ∧ t < tLim)
          ↔ (q < (c : ℚ) ∧ t < tLim) := by
        simp [dLtNat]
      by_cases hc : q < (c : ℚ) ∧ t < tLim
      · rw [if_pos (hcond.mpr hc), if_pos hc]
        have hstep : dAdd (some q) (pgO t) = some (q + pgR t) := by
          rw [hpg t]
          rfl
        rw [hstep]
        exact ih (q + pgR t) (t + 1)
      · rw [if_neg (fun h => hc (hcond.mp h)), if_neg hc]

theorem mrcLoop_map_some (pgO : Nat → Option ℚ) (pgR : Nat → ℚ)
    (hpg : ∀ i, pgO i = some (pgR i)) (tLim : Nat) :
    ∀ (rem c : Nat) (q : ℚ) (t : Nat),
      mrcLoop pgO tLim rem c (some q) t
        = (mrcLoopQ pgR tLim rem c q t).map some := by
  intro rem
  induction rem with
  | zero => intro c q t; rfl
  | succ r ih =>
      intro c q t
      have hadv := mrcAdvance_map_some pgO pgR hpg tLim c (tLim - t) q t
      unfold mrcLoop mrcLoopQ
      rw [hadv]
      dsimp only []
      by_cases hstop : tLim ≤ (mrcAdvanceQ pgR tLim c (tLim - t) q t).2
      · rw [if_pos hstop, if_pos hstop, hpg]
        rfl
      · rw [if_neg hstop, if_neg hstop, hpg,
          ih (c + 1) (mrcAdvanceQ pgR tLim c (tLim - t) q t).1
            (mrcAdvanceQ pgR tLim c (tLim - t) q t).2]
        rfl

theorem trimRevAux_map_some : ∀ l : List ℚ,
    trimRevAux (l.map some) = (trimRevAuxQ l).map some := by
  intro l
  induction l with
  | nil => rfl
  | cons a l1 ih =>
      cases l1 with
      | nil => rfl
      | cons b l2 =>
          cases l2 with
          | nil => rfl
          | cons c rest =>
              by_cases hab : a = b
              · have hbeq : dBeq (some a) (some b) = true := by
                  simp [dBeq, hab]
                rw [show trimRevAuxQ (a :: b :: c :: rest)
                    = trimRevAuxQ (b :: c :: rest) by
                  rw [trimRevAuxQ]; rw [if_pos hab]]
                rw [show ((a :: b :: c :: rest).map some : List (Option ℚ))
                    = some a :: some b :: some c :: rest.map some from rfl]
                rw [show trimRevAux (some a :: some b :: some c
                      :: rest.map some)
                    = trimRevAux (some b :: some c :: rest.map some) by
                  rw [trimRevAux]; rw [if_pos hbeq]]
                exact ih
              · have hbeq : ¬ dBeq (some a) (some b) = true := by
                  simp [dBeq, hab]
                rw [show trimRevAuxQ (a :: b :: c :: rest)
                    = a :: b :: c :: rest by
                  rw [trimRevAuxQ]; rw [if_neg hab]]
                rw [show ((a :: b :: c :: rest).map some : List (Option ℚ))
                    = some a :: some b :: some c :: rest.map some from rfl]
                rw [show trimRevAux (some a :: some b :: some c
                      :: rest.map some)
                    = some a :: some b :: some c :: rest.map some by
                  rw [trimRevAux]; rw [if_neg hbeq]]

theorem getMRC_eq_map_some (hist : List Nat)
    (unseen timestamp maxCacheSize bucketSize : Nat)
    (hS : reuseTimeSum (hist.drop 1) unseen ≠ 0) :
    getMRC hist unseen timestamp maxCacheSize bucketSize
      = (getMRCQ hist unseen timestamp maxCacheSize bucketSize).map some
    := by
  unfold getMRC getMRCQ
  rw [mrcLoop_map_some (probGreater (hist.drop 1) unseen)
    (probGreaterQ (hist.drop 1) unseen)
    (probGreater_some (hist.drop 1) unseen hS) (hist.length - 1)
    (maxCacheSize / bucketSize + 1) 0 0 0]
  rw [← List.map_reverse, trimRevAux_map_some, ← List.map_reverse]
  have hloopne := mrcLoopQ_ne_nil (probGreaterQ (hist.drop 1) unseen)
    (hist.length - 1) (maxCacheSize / bucketSize + 1) 0 0 0
    (Nat.succ_ne_zero _)
  have hne : (trimRevAuxQ (mrcLoopQ (probGreaterQ (hist.drop 1) unseen)
      (hist.length - 1) (maxCacheSize / bucketSize + 1) 0 0
      0).reverse).reverse ≠ [] := by
    simp only [ne_eq, List.reverse_eq_nil_iff]
    exact trimRevAuxQ_ne_nil _ (by simpa using hloopne)
  obtain ⟨b, rest, hB⟩ := List.exists_cons_of_ne_nil hne
  rw [hB]
  simp [List.map_append]

theorem mrcLoop_ne_nil (pg : Nat → Option ℚ) (tLim rem c : Nat)
    (integral : Option ℚ) (t : Nat) (hrem : rem ≠ 0) :
    mrcLoop pg tLim rem c integral t ≠ [] := by
  cases rem with
  | zero => exact absurd rfl hrem
  | succ r =>
      unfold mrcLoop
      by_cases hstop : tLim ≤ (mrcAdvance pg tLim c (tLim - t) integral t).2
      · rw [if_pos hstop]; simp
      · rw [if_neg hstop]; simp

theorem trimRevAux_ne_nil : ∀ l : List (Option ℚ), l ≠ [] →
    trimRevAux l ≠ [] := by
  intro l
  induction l with
  | nil => intro h; exact absurd rfl h
  | cons a l1 ih =>
      intro _
      cases l1 with
      | nil => simp [trimRevAux]
      | cons b l2 =>
          cases l2 with
          | nil => simp [trimRevAux]
          | cons c rest =>
              by_cases hab : dBeq a b = true
              · rw [show trimRevAux (a :: b :: c :: rest)
                    = trimRevAux (b :: c :: rest) by
                  rw [trimRevAux]; rw [if_pos hab]]
                exact ih (by simp)
              · rw [show trimRevAux (a :: b :: c :: rest)
                    = a :: b :: c :: rest by
                  rw [trimRevAux]; rw [if_neg hab]]
                simp

/-! #### C2, settled against the faithful model -/

theorem getMRC_nan_eval :
    getMRC [0, 0, 0, 0] 0 9 30 10
      = [some 1, some 1, none, none, some 9] := by
  norm_num [getMRC, mrcLoop, mrcAdvance, probGreater, ccdfPrefix,
    reuseTimeSum, trimRevAux, dAdd, dLtNat, dBeq]

/-- **C2 counterexample.** On the all-zero snapshot of a fresh or
freshly reset profiler (`reuse_time_sum = 0`, including the unseen
mass), `GetMRC(30)` with `bucket_size = 10` returns
`[1.0, 1.0, NaN, NaN, ts]`: the CCDF entries are `0.0/0.0 = NaN`, the
NaNs survive the plateau trim (`NaN == NaN` is false), and
`result[1] >= result[2]` is a comparison with NaN, hence false, at
`i = 1 < len - 2` — refuting the claim as stated. -/
theorem getMRC_monotonicity_counterexample :
    reuseTimeSum ([0, 0, 0, 0].drop 1) 0 = 0 ∧
    1 + 2 < (getMRC [0, 0, 0, 0] 0 9 30 10).length ∧
    (getMRC [0, 0, 0, 0] 0 9 30 10).getD 2 none = none ∧
    ¬ dGe ((getMRC [0, 0, 0, 0] 0 9 30 10).getD 1 none)
        ((getMRC [0, 0, 0, 0] 0 9 30 10).getD 2 none) := by
  refine ⟨by decide, ?_, ?_, ?_⟩
  · rw [getMRC_nan_eval]
    norm_num
  · rw [getMRC_nan_eval]
    rfl
  · rw [getMRC_nan_eval]
    simp [dGe]

theorem getD_map_some (l : List ℚ) (i : Nat) (h : i < l.length) :
    (l.map some).getD i none = some (l.getD i 0) := by
  rw [List.getD_eq_getElem?_getD, List.getElem?_map,
    List.getElem?_eq_getElem h, List.getD_eq_getElem?_getD,
    List.getElem?_eq_getElem h]
  rfl

/-- **C2 (amended).** Every vector returned by `GetMRC` has
`result[0] = 1.0`; when the snapshot's `reuse_time_sum` (histogram
buckets 1.. plus the unseen mass) is nonzero — so no `0.0/0.0` NaN
arises — it is also monotonically non-increasing up to its
second-to-last element: `result[i] >= result[i+1]` for every
`i < len - 2`, the final element (the appended logical clock) being
exempt. -/
theorem getMRC_head_one_and_monotone_amended (hist : List Nat)
    (unseen timestamp maxCacheSize bucketSize : Nat) :
    (getMRC hist unseen timestamp maxCacheSize bucketSize).getD 0 none
      = some 1 ∧
    (reuseTimeSum (hist.drop 1) unseen ≠ 0 →
      ∀ i : Nat,
        i + 2 < (getMRC hist unseen timestamp maxCacheSize
          bucketSize).length →
        dGe ((getMRC hist unseen timestamp maxCacheSize
            bucketSize).getD i none)
          ((getMRC hist unseen timestamp maxCacheSize
            bucketSize).getD (i + 1) none)) := by
  constructor
  · have hne : (trimRevAux (mrcLoop (probGreater (hist.drop 1) unseen)
        (hist.length - 1) (maxCacheSize / bucketSize + 1) 0 (some 0)
        0).reverse).reverse ≠ [] := by
      simp only [ne_eq, List.reverse_eq_nil_iff]
      refine trimRevAux_ne_nil _ ?_
      simp only [ne_eq, List.reverse_eq_nil_iff]
      exact mrcLoop_ne_nil (probGreater (hist.drop 1) unseen)
        (hist.length - 1) (maxCacheSize / bucketSize + 1) 0 (some 0) 0
        (Nat.succ_ne_zero _)
    obtain ⟨b, rest, hB⟩ := List.exists_cons_of_ne_nil hne
    unfold getMRC
    rw [hB, List.cons_append]
    rfl
  · intro hS i hlen
    have hmap := getMRC_eq_map_some hist unseen timestamp maxCacheSize
      bucketSize hS
    rw [hmap] at hlen ⊢
    rw [List.length_map] at hlen
    rw [getD_map_some _ i (by omega), getD_map_some _ (i + 1) (by omega)]
    show (getMRCQ hist unseen timestamp maxCacheSize bucketSize).getD
        (i + 1) 0
      ≤ (getMRCQ hist unseen timestamp maxCacheSize bucketSize).getD i 0
    exact (getMRCQ_head_one_and_monotone hist unseen timestamp
      maxCacheSize bucketSize).2 i hlen

theorem getMRC_pos_eval :
    getMRC [0, 0, 0] 5 7 10 10 = [some 1, some 1, some 7] := by
  norm_num [getMRC, mrcLoop, mrcAdvance, probGreater, ccdfPrefix,
    reuseTimeSum, trimRevAux, dAdd, dLtNat, dBeq]

/-- Witness for the amended C2 at a concrete nonzero-sum snapshot. -/
theorem getMRC_amended_witness :
    (getMRC [0, 0, 0] 5 7 10 10).getD 0 none = some 1 ∧
    dGe ((getMRC [0, 0, 0] 5 7 10 10).getD 0 none)
      ((getMRC [0, 0, 0] 5 7 10 10).getD 1 none) :=
  ⟨(getMRC_head_one_and_monotone_amended [0, 0, 0] 5 7 10 10).1,
   (getMRC_head_one_and_monotone_amended [0, 0, 0] 5 7 10 10).2
     (by decide) 0 (by rw [getMRC_pos_eval]; norm_num)⟩

end DeepRecCache
